import Mathlib

/-!
Shallow embedding of the agentbets program
(src/programs/agentbets/src/lib.rs): a parimutuel prediction market and a
CLOB (central limit order book) market over YES/NO shares.

Machine integers are modelled as `Nat` together with the explicit bounds
`U64_MOD` and `U128_MOD`; the Rust `checked_*` operations return
`Option Nat`, and an `unwrap` of `None`, an out-of-bounds index, or an
overflowing `+=` (the workspace builds with overflow checks on) aborts the
whole instruction, modelled as an explicit error value of the `Except`
result — on chain such an abort discards every state change of the
instruction.  Account plumbing (PDA derivation, signer checks tying a
position to its claimer, lamport custody and transfer execution) is the
external collaborator layer and is not embedded; the embedded operations
return the payout / refund / collateral amounts that the program hands to
the transfer collaborator, and account fields never read by the embedded
instructions (authority, ids, bumps, timestamps of creation) are omitted.
-/

namespace Agentbets

def MAX_ORDERS : Nat := 50

def SHARE_PAYOUT : Nat := 10000

def BPS_MAX : Nat := 10000

def U64_MOD : Nat := 2 ^ 64

def U128_MOD : Nat := 2 ^ 128

/-- Rust `u64::checked_add`. -/
def checkedAdd64 (a b : Nat) : Option Nat :=
  if a + b < U64_MOD then some (a + b) else none

/-- Rust `u64::checked_mul`. -/
def checkedMul64 (a b : Nat) : Option Nat :=
  if a * b < U64_MOD then some (a * b) else none

/-- Rust `u128::checked_mul`. -/
def checkedMul128 (a b : Nat) : Option Nat :=
  if a * b < U128_MOD then some (a * b) else none

/-- Rust `u128::checked_div` (`none` exactly on a zero divisor). -/
def checkedDiv128 (a b : Nat) : Option Nat :=
  if b = 0 then none else some (a / b)

/-- The parimutuel `ErrorCode` enum of the program, extended with
`unwrapPanic` standing for a Rust panic (`unwrap` of `None`, slice index
out of bounds, or an overflow-checked `+=` overflowing), which on chain
aborts the instruction just like a returned error, but without surfacing a
program error code. -/
inductive PErr where
  | invalidOutcomeCount
  | marketIdTooLong
  | questionTooLong
  | invalidOutcome
  | marketAlreadyResolved
  | marketNotResolved
  | marketResolved
  | noWinningShares
  | unauthorized
  | unwrapPanic
deriving DecidableEq, Repr

/-- Parimutuel `Market` account: the fields read or written by `buy_shares`
and `claim_winnings`. -/
structure Market where
  outcomes : List String
  outcome_pools : List Nat
  total_pool : Nat
  resolved : Bool
  winning_outcome : Option Nat
deriving DecidableEq, Repr

/-- Parimutuel `Position` account: per-outcome share balances. -/
structure Position where
  shares : List Nat
deriving DecidableEq, Repr

/-- `buy_shares` (lib.rs lines 49–82).  The buyer→market lamport transfer
is the external custody collaborator; on success shares are issued 1:1 with
`amount`, the outcome pool and total pool grow by `amount`, and the
position vector is lazily initialised to the market's outcome count. -/
def buyShares (m : Market) (p : Position) (outcome_index amount : Nat) :
    Except PErr (Market × Position) :=
  if m.resolved then .error .marketResolved
  else if ¬ outcome_index < m.outcomes.length then .error .invalidOutcome
  else if ¬ outcome_index < m.outcome_pools.length then .error .unwrapPanic
  else
    match checkedAdd64 (m.outcome_pools.getD outcome_index 0) amount,
          checkedAdd64 m.total_pool amount with
    | some pool, some tot =>
      let shares0 := if p.shares.isEmpty then List.replicate m.outcomes.length 0 else p.shares
      if ¬ outcome_index < shares0.length then .error .unwrapPanic
      else
        match checkedAdd64 (shares0.getD outcome_index 0) amount with
        | some s =>
          .ok ({ m with
                  outcome_pools := m.outcome_pools.set outcome_index pool,
                  total_pool := tot },
               { shares := shares0.set outcome_index s })
        | none => .error .unwrapPanic
    | _, _ => .error .unwrapPanic

/-- `claim_winnings` (lib.rs lines 102–129).  Returns the unchanged market,
the updated position, and the net payout handed to the lamport-transfer
collaborator.  The `as u64` narrowing of the u128 quotient is the explicit
`% U64_MOD`; both `unwrap` calls surface as `unwrapPanic`. -/
def claimWinnings (m : Market) (p : Position) :
    Except PErr (Market × Position × Nat) :=
  if ¬ m.resolved then .error .marketNotResolved
  else
    match m.winning_outcome with
    | none => .error .unwrapPanic
    | some w =>
      if ¬ w < p.shares.length then .error .unwrapPanic
      else
        let winner_shares := p.shares.getD w 0
        if winner_shares = 0 then .error .noWinningShares
        else if ¬ w < m.outcome_pools.length then .error .unwrapPanic
        else
          let total_winning_shares := m.outcome_pools.getD w 0
          match checkedMul128 winner_shares m.total_pool with
          | none => .error .unwrapPanic
          | some prod =>
            match checkedDiv128 prod total_winning_shares with
            | none => .error .unwrapPanic
            | some q =>
              let payout := q % U64_MOD
              let fee := payout / 50
              let net_payout := payout - fee
              .ok (m, { shares := p.shares.set w 0 }, net_payout)

/-- Sum of the per-outcome pools, the left side of the conservation
invariant `sum(outcome_pools) == total_pool`. -/
def sumPools (m : Market) : Nat := m.outcome_pools.sum

/-- Sequences of successful `buy_shares` calls against one market, with
arbitrary (possibly distinct) buyer positions at each step. -/
inductive BuySeq : Market → Market → Prop where
  | refl (m : Market) : BuySeq m m
  | step (m m₁ m₂ : Market) (p p' : Position) (i a : Nat) :
      BuySeq m m₁ → buyShares m₁ p i a = .ok (m₂, p') → BuySeq m m₂

instance {ε α : Type} [DecidableEq ε] [DecidableEq α] : DecidableEq (Except ε α) := fun x y =>
  match x, y with
  | .error a, .error b =>
      if h : a = b then isTrue (by subst h; rfl)
      else isFalse (by intro hc; injection hc; contradiction)
  | .error _, .ok _ => isFalse (by intro hc; cases hc)
  | .ok _, .error _ => isFalse (by intro hc; cases hc)
  | .ok a, .ok b =>
      if h : a = b then isTrue (by subst h; rfl)
      else isFalse (by intro hc; injection hc; contradiction)

/-- The `ClobError` enum of the program, extended with `unwrapPanic` for
the `winning_side.unwrap()` panic (unreachable once resolved). -/
inductive CErr where
  | marketIdTooLong
  | questionTooLong
  | invalidPrice
  | invalidSize
  | marketResolved
  | marketExpired
  | orderBookFull
  | invalidOrderIndex
  | notOrderOwner
  | invalidOutcome
  | alreadyResolved
  | unauthorized
  | notResolved
  | noWinnings
  | overflow
  | unwrapPanic
deriving DecidableEq, Repr

/-- A resting order.  `owner` is the trader's pubkey, modelled as a `Nat`
with `0` playing `Pubkey::default()`.  `arrival` is a ghost instrumentation
field, not in the source: the reachability relation (below) stamps each
call with a strictly increasing arrival number so that time priority (FIFO
within a price level) can be stated; no embedded operation ever reads
`arrival` (just as the source never reads `order_id`), so it cannot affect
behaviour. -/
structure Order where
  owner : Nat
  price : Nat
  size : Nat
  timestamp : Int
  order_id : Nat
  arrival : Nat
deriving DecidableEq, Repr

/-- The order book account: two lists of resting YES-denominated orders. -/
structure OrderBook where
  yes_bids : List Order
  yes_asks : List Order
deriving DecidableEq, Repr

/-- CLOB market account: the fields read by the embedded instructions.
(`total_yes_volume` / `total_no_volume` are written only at creation and
never updated or read afterwards, so they are omitted.) -/
structure ClobMarket where
  resolution_time : Int
  resolved : Bool
  winning_side : Option Nat
deriving DecidableEq, Repr

/-- Per-trader CLOB position: YES and NO share balances. -/
structure ClobPosition where
  owner : Nat
  yes_shares : Nat
  no_shares : Nat
deriving DecidableEq, Repr

/-- `match_against_asks` (lib.rs lines 386–417): fill an incoming
YES-bid with limit `max_price` against the ask list, best (head) first,
crediting the taker's YES balance per fill.  The source's `while` loop is
compiled to structural recursion on the ask list; in the partial-fill
branch the fill equals the whole incoming size (`fill = min size o.size`
with `fill ≠ o.size` forces `fill = size`), so the loop's next iteration
would exit at its `size > 0` test with the book exactly as returned here. -/
def matchAgainstAsks (max_price : Nat) :
    List Order → ClobPosition → Nat → Except CErr (List Order × ClobPosition × Nat)
  | [], pos, size => .ok ([], pos, size)
  | o :: rest, pos, size =>
    if size = 0 then .ok (o :: rest, pos, size)
    else if max_price < o.price then .ok (o :: rest, pos, size)
    else
      let fill_size := min size o.size
      match checkedAdd64 pos.yes_shares fill_size with
      | none => .error .overflow
      | some ys =>
        if fill_size = o.size then
          matchAgainstAsks max_price rest { pos with yes_shares := ys } (size - fill_size)
        else
          .ok ({ o with size := o.size - fill_size } :: rest,
               { pos with yes_shares := ys }, size - fill_size)

/-- `match_against_bids` (lib.rs lines 419–450): fill an incoming
YES-ask with floor `min_price` against the bid list, best (head) first,
crediting the taker's NO balance per fill.  Compiled like
`matchAgainstAsks`. -/
def matchAgainstBids (min_price : Nat) :
    List Order → ClobPosition → Nat → Except CErr (List Order × ClobPosition × Nat)
  | [], pos, size => .ok ([], pos, size)
  | o :: rest, pos, size =>
    if size = 0 then .ok (o :: rest, pos, size)
    else if o.price < min_price then .ok (o :: rest, pos, size)
    else
      let fill_size := min size o.size
      match checkedAdd64 pos.no_shares fill_size with
      | none => .error .overflow
      | some ns =>
        if fill_size = o.size then
          matchAgainstBids min_price rest { pos with no_shares := ns } (size - fill_size)
        else
          .ok ({ o with size := o.size - fill_size } :: rest,
               { pos with no_shares := ns }, size - fill_size)

/-- Insertion of a resting bid (lib.rs lines 261–265): the source inserts
at `yes_bids.iter().position(|o| o.price < effective_price)`, defaulting to
the end — i.e. before the first entry with a strictly lower price, which
this recursion computes directly. -/
def insertBid (o : Order) : List Order → List Order
  | [] => [o]
  | b :: rest => if b.price < o.price then o :: b :: rest else b :: insertBid o rest

/-- Insertion of a resting ask (lib.rs lines 289–293): before the first
entry with a strictly higher price. -/
def insertAsk (o : Order) : List Order → List Order
  | [] => [o]
  | b :: rest => if o.price < b.price then o :: b :: rest else b :: insertAsk o rest

/-- `place_order` (lib.rs lines 185–302).  Returns the updated book and
position, the collateral amount escrowed up front with the transfer
collaborator, and the size left resting (so `size - remaining` is the
filled amount).  `arrival` is the ghost arrival stamp recorded on a rested
order (see `Order`). -/
def placeOrder (mk : ClobMarket) (book : OrderBook) (pos : ClobPosition)
    (trader : Nat) (side : Nat) (is_yes : Bool) (price size : Nat)
    (now : Int) (arrival : Nat) :
    Except CErr (OrderBook × ClobPosition × Nat × Nat) :=
  if ¬ (0 < price ∧ price < BPS_MAX) then .error .invalidPrice
  else if ¬ 0 < size then .error .invalidSize
  else if mk.resolved then .error .marketResolved
  else if ¬ now < mk.resolution_time then .error .marketExpired
  else
    let effective_side := if is_yes then side else if side = 0 then 1 else 0
    let effective_price := if is_yes then price else BPS_MAX - price
    match (if effective_side = 0 then checkedMul64 effective_price size
           else checkedMul64 (BPS_MAX - effective_price) size) with
    | none => .error .overflow
    | some collateral_required =>
      let pos0 := if pos.owner = 0 then
          { owner := trader, yes_shares := 0, no_shares := 0 } else pos
      let order_id := (now % (U64_MOD : Int)).toNat
      if effective_side = 0 then
        match matchAgainstAsks effective_price book.yes_asks pos0 size with
        | .error e => .error e
        | .ok (asks', pos', remaining) =>
          if 0 < remaining then
            if ¬ book.yes_bids.length < MAX_ORDERS then .error .orderBookFull
            else
              let o : Order := { owner := trader, price := effective_price,
                                 size := remaining, timestamp := now,
                                 order_id := order_id, arrival := arrival }
              .ok ({ yes_bids := insertBid o book.yes_bids, yes_asks := asks' },
                   pos', collateral_required, remaining)
          else
            .ok ({ book with yes_asks := asks' }, pos', collateral_required, remaining)
      else
        match matchAgainstBids effective_price book.yes_bids pos0 size with
        | .error e => .error e
        | .ok (bids', pos', remaining) =>
          if 0 < remaining then
            if ¬ book.yes_asks.length < MAX_ORDERS then .error .orderBookFull
            else
              let o : Order := { owner := trader, price := effective_price,
                                 size := remaining, timestamp := now,
                                 order_id := order_id, arrival := arrival }
              .ok ({ yes_bids := bids', yes_asks := insertAsk o book.yes_asks },
                   pos', collateral_required, remaining)
          else
            .ok ({ book with yes_bids := bids' }, pos', collateral_required, remaining)

/-- `cancel_order` (lib.rs lines 305–337).  Returns the book with the
order removed and the refund amount handed to the transfer collaborator.
The source's `require!(order_index < orders.len(), InvalidOrderIndex)`
followed by `&orders[order_index]` is modelled by matching on
`orders.get? order_index`, which is `some` exactly when the bound check
passes. -/
def cancelOrder (book : OrderBook) (is_bid : Bool) (order_index : Nat) (trader : Nat) :
    Except CErr (OrderBook × Nat) :=
  let orders := if is_bid then book.yes_bids else book.yes_asks
  match orders.get? order_index with
  | none => .error .invalidOrderIndex
  | some o =>
    if ¬ o.owner = trader then .error .notOrderOwner
    else
      match (if is_bid then checkedMul64 o.price o.size
             else checkedMul64 (BPS_MAX - o.price) o.size) with
      | none => .error .overflow
      | some refund =>
        .ok ((if is_bid then { book with yes_bids := book.yes_bids.eraseIdx order_index }
              else { book with yes_asks := book.yes_asks.eraseIdx order_index }), refund)

/-- `claim_clob_winnings` (lib.rs lines 358–381).  Returns the cleared
position and the payout handed to the transfer collaborator. -/
def claimClobWinnings (mk : ClobMarket) (pos : ClobPosition) :
    Except CErr (ClobPosition × Nat) :=
  if ¬ mk.resolved then .error .notResolved
  else
    match mk.winning_side with
    | none => .error .unwrapPanic
    | some winning_side =>
      match (if winning_side = 0 then checkedMul64 pos.yes_shares SHARE_PAYOUT
             else checkedMul64 pos.no_shares SHARE_PAYOUT) with
      | none => .error .overflow
      | some payout =>
        if ¬ 0 < payout then .error .noWinnings
        else .ok ({ pos with yes_shares := 0, no_shares := 0 }, payout)

/-- Total resting share size of a list of orders. -/
def sumSizes (l : List Order) : Nat := (l.map Order.size).sum

/-- Priority order on the bid side: `a` may rest before `b` iff `a` has a
strictly higher price, or the same price and an earlier arrival. -/
def bidBefore (a b : Order) : Prop :=
  b.price < a.price ∨ (b.price = a.price ∧ a.arrival < b.arrival)

/-- Priority order on the ask side: `a` may rest before `b` iff `a` has a
strictly lower price, or the same price and an earlier arrival. -/
def askBefore (a b : Order) : Prop :=
  a.price < b.price ∨ (a.price = b.price ∧ a.arrival < b.arrival)

/-- Whenever both sides are non-empty, the best (first) bid is strictly
below the best (first) ask. -/
def noCross (b : OrderBook) : Prop :=
  ∀ x ∈ b.yes_bids.head?, ∀ y ∈ b.yes_asks.head?, x.price < y.price

/-- The book ordering invariant: bids sorted by descending price with FIFO
arrival order inside a price level, asks sorted ascending likewise, and no
crossed prices. -/
def BookInv (b : OrderBook) : Prop :=
  b.yes_bids.Pairwise bidBefore ∧ b.yes_asks.Pairwise askBefore ∧ noCross b

/-- Every arrival stamp in the list is below `k`. -/
def arrivalsBelow (k : Nat) (l : List Order) : Prop :=
  ∀ o ∈ l, o.arrival < k

/-- Order-book states reachable from the empty book by successful
`place_order` and `cancel_order` calls.  The second component is the ghost
arrival counter: each `place_order` call is stamped with the next arrival
number (the host serialises calls on one market, so arrival order is
well-defined). -/
inductive Reach : OrderBook → Nat → Prop where
  | empty : Reach { yes_bids := [], yes_asks := [] } 0
  | place (b : OrderBook) (k : Nat) (mk : ClobMarket) (pos : ClobPosition)
      (trader side : Nat) (is_yes : Bool) (price size : Nat) (now : Int)
      (b' : OrderBook) (pos' : ClobPosition) (c r : Nat) :
      Reach b k →
      placeOrder mk b pos trader side is_yes price size now k = .ok (b', pos', c, r) →
      Reach b' (k + 1)
  | cancel (b : OrderBook) (k : Nat) (is_bid : Bool) (idx trader : Nat)
      (b' : OrderBook) (refund : Nat) :
      Reach b k →
      cancelOrder b is_bid idx trader = .ok (b', refund) →
      Reach b' k

/-! ### List helper lemmas -/

theorem getD_set_self (l : List Nat) (i v : Nat) (h : i < l.length) :
    (l.set i v).getD i 0 = v := by
  induction l generalizing i with
  | nil => simp at h
  | cons a t ih =>
    cases i with
    | zero => simp
    | succ n => simpa using ih n (by simpa using h)

theorem getD_set_ne (l : List Nat) (i j v : Nat) (h : j ≠ i) :
    (l.set i v).getD j 0 = l.getD j 0 := by
  induction l generalizing i j with
  | nil => simp
  | cons a t ih =>
    cases i with
    | zero =>
      cases j with
      | zero => exact absurd rfl h
      | succ n => simp
    | succ n =>
      cases j with
      | zero => simp
      | succ k => simpa using ih n k (by omega)

theorem sum_set_getD (l : List Nat) (i v : Nat) (h : i < l.length) :
    (l.set i v).sum + l.getD i 0 = l.sum + v := by
  induction l generalizing i with
  | nil => simp at h
  | cons a t ih =>
    cases i with
    | zero => simp [Nat.add_comm, Nat.add_left_comm]
    | succ n =>
      have := ih n (by simpa using h)
      simp only [List.set_cons_succ, List.sum_cons, List.getD_cons_succ]
      omega

/-! ### Parimutuel claim lemmas -/

/-- Inversion of a successful `claim_winnings`: the market is returned
untouched, the claim ran on a resolved market against the stored winning
outcome, the claimer held positive winning shares, and the only position
change is that the winning entry is set to zero. -/
theorem claimWinnings_ok_inv (m m' : Market) (p p' : Position) (net : Nat)
    (h : claimWinnings m p = .ok (m', p', net)) :
    m' = m ∧ m.resolved = true ∧ ∃ w, m.winning_outcome = some w ∧
      w < p.shares.length ∧ 0 < p.shares.getD w 0 ∧ w < m.outcome_pools.length ∧
      p'.shares = p.shares.set w 0 := by
  simp only [claimWinnings] at h
  split at h
  · exact Except.noConfusion h
  rename_i hres
  split at h
  · exact Except.noConfusion h
  rename_i w hw
  split at h
  · exact Except.noConfusion h
  rename_i hlen
  split at h
  · exact Except.noConfusion h
  rename_i hpos
  split at h
  · exact Except.noConfusion h
  rename_i hplen
  split at h
  · exact Except.noConfusion h
  rename_i prod hmul
  split at h
  · exact Except.noConfusion h
  rename_i q hdiv
  injection h with h1
  simp only [Prod.mk.injEq] at h1
  obtain ⟨hm, hp, _⟩ := h1
  refine ⟨hm.symm, by simpa using hres, w, hw, not_not.mp hlen,
    Nat.pos_of_ne_zero hpos, not_not.mp hplen, ?_⟩
  simpa using (congrArg Position.shares hp).symm

/-- A successful `checked_add` returns the exact sum, which fits in 64 bits. -/
theorem checkedAdd64_some {a b c : Nat} (h : checkedAdd64 a b = some c) :
    c = a + b ∧ a + b < U64_MOD := by
  unfold checkedAdd64 at h
  split at h
  · injection h with h
    exact ⟨h.symm, by assumption⟩
  · exact Option.noConfusion h

/-- A successful `checked_mul` returns the exact product, which fits in 64 bits. -/
theorem checkedMul64_some {a b c : Nat} (h : checkedMul64 a b = some c) :
    c = a * b ∧ a * b < U64_MOD := by
  unfold checkedMul64 at h
  split at h
  · injection h with h
    exact ⟨h.symm, by assumption⟩
  · exact Option.noConfusion h

/-- Forward evaluation of a well-formed `claim_winnings`: on a resolved
market, with positive winning shares no larger than the winning pool and
u64-sized fields, the claim succeeds, zeroes the winning entry, and pays
`floor(w*T/W) - floor(w*T/W)/50`. -/
theorem claimWinnings_ok_eq (m : Market) (p : Position) (w : Nat)
    (hres : m.resolved = true)
    (hw : m.winning_outcome = some w)
    (hlen : w < p.shares.length)
    (hpos : 0 < p.shares.getD w 0)
    (hplen : w < m.outcome_pools.length)
    (hW : 0 < m.outcome_pools.getD w 0)
    (hws64 : p.shares.getD w 0 < U64_MOD)
    (hT64 : m.total_pool < U64_MOD)
    (hq64 : p.shares.getD w 0 * m.total_pool / m.outcome_pools.getD w 0 < U64_MOD) :
    claimWinnings m p = .ok (m, { shares := p.shares.set w 0 },
      p.shares.getD w 0 * m.total_pool / m.outcome_pools.getD w 0 -
        p.shares.getD w 0 * m.total_pool / m.outcome_pools.getD w 0 / 50) := by
  have hmul : checkedMul128 (p.shares.getD w 0) m.total_pool
      = some (p.shares.getD w 0 * m.total_pool) := by
    unfold checkedMul128
    rw [if_pos]
    have h1 : p.shares.getD w 0 * m.total_pool < U64_MOD * U64_MOD :=
      Nat.mul_lt_mul_of_lt_of_le hws64 (Nat.le_of_lt hT64) (by simp [U64_MOD])
    calc p.shares.getD w 0 * m.total_pool < U64_MOD * U64_MOD := h1
      _ = U128_MOD := by norm_num [U64_MOD, U128_MOD]
  have hdiv : checkedDiv128 (p.shares.getD w 0 * m.total_pool) (m.outcome_pools.getD w 0)
      = some (p.shares.getD w 0 * m.total_pool / m.outcome_pools.getD w 0) := by
    unfold checkedDiv128
    rw [if_neg (by omega)]
  have hmod : (p.shares.getD w 0 * m.total_pool / m.outcome_pools.getD w 0) % U64_MOD
      = p.shares.getD w 0 * m.total_pool / m.outcome_pools.getD w 0 :=
    Nat.mod_eq_of_lt hq64
  simp only [claimWinnings, hw]
  rw [if_neg (not_not_intro hres)]
  rw [if_neg (not_not_intro hlen)]
  rw [if_neg (by omega : ¬ p.shares.getD w 0 = 0)]
  rw [if_neg (not_not_intro hplen)]
  simp only [hmul, hdiv, hmod]

/-- Inversion of a successful `buy_shares`: the market was unresolved, the
outcome index valid, both checked additions fit, and the only market
change is the two pool increments. -/
theorem buyShares_ok_inv (m : Market) (p : Position) (i a : Nat)
    (m' : Market) (p' : Position)
    (h : buyShares m p i a = .ok (m', p')) :
    m.resolved = false ∧ i < m.outcomes.length ∧ i < m.outcome_pools.length ∧
    m.outcome_pools.getD i 0 + a < U64_MOD ∧ m.total_pool + a < U64_MOD ∧
    m' = { m with
            outcome_pools := m.outcome_pools.set i (m.outcome_pools.getD i 0 + a),
            total_pool := m.total_pool + a } := by
  simp only [buyShares] at h
  split at h
  · exact Except.noConfusion h
  rename_i hres
  split at h
  · exact Except.noConfusion h
  rename_i hout
  split at h
  · exact Except.noConfusion h
  rename_i hplen
  split at h
  rotate_left
  · exact Except.noConfusion h
  rename_i pool tot hadd1 hadd2
  split at h
  case isTrue hemp =>
    split at h
    · exact Except.noConfusion h
    rename_i hslen
    split at h
    rotate_left
    · exact Except.noConfusion h
    rename_i s hadd3
    injection h with h1
    obtain ⟨hm, hp⟩ := Prod.mk.injEq .. ▸ h1
    obtain ⟨hpool, hb1⟩ := checkedAdd64_some hadd1
    obtain ⟨htot, hb2⟩ := checkedAdd64_some hadd2
    refine ⟨by simpa using hres, not_not.mp hout, not_not.mp hplen, hb1, hb2, ?_⟩
    rw [← hm, hpool, htot]
  case isFalse hemp =>
    split at h
    · exact Except.noConfusion h
    rename_i hslen
    split at h
    rotate_left
    · exact Except.noConfusion h
    rename_i s hadd3
    injection h with h1
    obtain ⟨hm, hp⟩ := Prod.mk.injEq .. ▸ h1
    obtain ⟨hpool, hb1⟩ := checkedAdd64_some hadd1
    obtain ⟨htot, hb2⟩ := checkedAdd64_some hadd2
    refine ⟨by simpa using hres, not_not.mp hout, not_not.mp hplen, hb1, hb2, ?_⟩
    rw [← hm, hpool, htot]

/-- Facts about one successful buy: the chosen pool and the total pool each
grow by exactly the amount, other pools are untouched, and pool/total
conservation is preserved. -/
theorem buyShares_step_facts (m : Market) (p : Position) (i a : Nat)
    (m' : Market) (p' : Position)
    (h : buyShares m p i a = .ok (m', p')) :
    m'.outcome_pools.getD i 0 = m.outcome_pools.getD i 0 + a ∧
    (∀ j, j ≠ i → m'.outcome_pools.getD j 0 = m.outcome_pools.getD j 0) ∧
    m'.total_pool = m.total_pool + a ∧
    (sumPools m = m.total_pool → sumPools m' = m'.total_pool) := by
  obtain ⟨-, -, hplen, -, -, hm⟩ := buyShares_ok_inv m p i a m' p' h
  subst hm
  refine ⟨getD_set_self _ _ _ hplen, fun j hj => getD_set_ne _ _ _ _ hj, rfl, ?_⟩
  intro hinv
  have hs := sum_set_getD m.outcome_pools i (m.outcome_pools.getD i 0 + a) hplen
  simp only [sumPools] at *
  omega

/-! ### Claim theorems -/

/-- C3: starting from any parimutuel market state with
`sum(outcome_pools) == total_pool`, every successful `buy_shares` with a
valid outcome index on an unresolved market adds exactly `a` to
`outcome_pools[i]` and exactly `a` to `total_pool` (leaving other pools
untouched), and the conservation invariant holds after every call of any
sequence of successful buys. -/
theorem buy_shares_conservation :
    (∀ (m : Market) (p : Position) (i a : Nat) (m' : Market) (p' : Position),
      buyShares m p i a = .ok (m', p') →
      m'.outcome_pools.getD i 0 = m.outcome_pools.getD i 0 + a ∧
      (∀ j, j ≠ i → m'.outcome_pools.getD j 0 = m.outcome_pools.getD j 0) ∧
      m'.total_pool = m.total_pool + a) ∧
    (∀ m m', BuySeq m m' → sumPools m = m.total_pool → sumPools m' = m'.total_pool) := by
  constructor
  · intro m p i a m' p' h
    obtain ⟨h1, h2, h3, _⟩ := buyShares_step_facts m p i a m' p' h
    exact ⟨h1, h2, h3⟩
  · intro m m' hseq
    induction hseq with
    | refl => exact id
    | step m1 m2 p p' i a hseq hbuy ih =>
      intro hinv
      exact (buyShares_step_facts m1 p i a m2 p' hbuy).2.2.2 (ih hinv)

/-- Witness for C3: a concrete one-step buy sequence (10 units on outcome 0
of a market with pools [1, 2], total 3) reaches pools [11, 2], total 13,
and the theorem yields the conservation equality there. -/
theorem buy_shares_conservation_witness :
    sumPools { outcomes := [String.mk [], String.mk []], outcome_pools := [11, 2],
               total_pool := 13, resolved := false, winning_outcome := (none : Option Nat) }
      = 13 := by
  have hb : buyShares
      { outcomes := [String.mk [], String.mk []], outcome_pools := [1, 2],
        total_pool := 3, resolved := false, winning_outcome := none }
      { shares := [] } 0 10
      = .ok ({ outcomes := [String.mk [], String.mk []], outcome_pools := [11, 2],
               total_pool := 13, resolved := false, winning_outcome := none },
             { shares := [10, 0] }) := by decide
  have h := buy_shares_conservation.2 _ _
    (BuySeq.step _ _ _ _ _ 0 10 (BuySeq.refl _) hb) (by decide)
  simpa using h

/-- C2: on a resolved parimutuel market, a claimer holding
`ws = shares[w] > 0` winning shares (with `ws ≤ outcome_pools[w]`, as in
any reachable state, and u64-sized fields) gets
`gross = floor(ws * total_pool / outcome_pools[w])` computed in u128,
`fee = gross / 50` by truncating division, and is paid `gross - fee`. -/
theorem claim_winnings_payout (m : Market) (p : Position) (w : Nat)
    (hres : m.resolved = true)
    (hw : m.winning_outcome = some w)
    (hlen : w < p.shares.length)
    (hpos : 0 < p.shares.getD w 0)
    (hplen : w < m.outcome_pools.length)
    (hW : 0 < m.outcome_pools.getD w 0)
    (hwle : p.shares.getD w 0 ≤ m.outcome_pools.getD w 0)
    (hT64 : m.total_pool < U64_MOD)
    (hW64 : m.outcome_pools.getD w 0 < U64_MOD) :
    claimWinnings m p = .ok (m, { shares := p.shares.set w 0 },
      p.shares.getD w 0 * m.total_pool / m.outcome_pools.getD w 0 -
        p.shares.getD w 0 * m.total_pool / m.outcome_pools.getD w 0 / 50) := by
  have hq : p.shares.getD w 0 * m.total_pool / m.outcome_pools.getD w 0
      ≤ m.total_pool := by
    have h1 : p.shares.getD w 0 * m.total_pool
        ≤ m.outcome_pools.getD w 0 * m.total_pool :=
      Nat.mul_le_mul_right _ hwle
    calc p.shares.getD w 0 * m.total_pool / m.outcome_pools.getD w 0
        ≤ m.outcome_pools.getD w 0 * m.total_pool / m.outcome_pools.getD w 0 :=
          Nat.div_le_div_right h1
      _ = m.total_pool := Nat.mul_div_cancel_left _ hW
  exact claimWinnings_ok_eq m p w hres hw hlen hpos hplen hW
    (lt_of_le_of_lt hwle hW64) hT64 (lt_of_le_of_lt hq hT64)

/-- Witness for C2: pools [300, 700], total 1000, outcome 0 wins, claimer
holds 150 of the 300 winning shares: gross 500, fee 10, net 490. -/
theorem claim_winnings_payout_witness :
    claimWinnings
      { outcomes := [String.mk [], String.mk []], outcome_pools := [300, 700],
        total_pool := 1000, resolved := true, winning_outcome := some 0 }
      { shares := [150, 0] }
      = .ok ({ outcomes := [String.mk [], String.mk []], outcome_pools := [300, 700],
               total_pool := 1000, resolved := true, winning_outcome := some 0 },
             { shares := [0, 0] }, 490)
    ∧ 150 * 1000 / 300 = 500 ∧ 500 / 50 = 10 ∧ 500 - 10 = 490 := by
  refine ⟨?_, by decide, by decide, by decide⟩
  have h := claim_winnings_payout
    { outcomes := [String.mk [], String.mk []], outcome_pools := [300, 700],
      total_pool := 1000, resolved := true, winning_outcome := some 0 }
    { shares := [150, 0] } 0 rfl rfl (by decide) (by decide) (by decide)
    (by decide) (by decide) (by decide) (by decide)
  rw [h]
  decide

/-- C7: after a successful parimutuel claim, the winning-outcome balance
of the position is zero, and a second `claim_winnings` by the same claimer
on the same position fails with `NoWinningShares`. -/
theorem claim_winnings_twice (m m' : Market) (p p' : Position) (net : Nat)
    (h : claimWinnings m p = .ok (m', p', net)) :
    (∀ w, m.winning_outcome = some w → p'.shares.getD w 0 = 0) ∧
    claimWinnings m' p' = .error .noWinningShares := by
  obtain ⟨hm, hres, w, hw, hlen, hpos, hplen, hp⟩ := claimWinnings_ok_inv m m' p p' net h
  subst hm
  constructor
  · intro w' hw'
    rw [hw] at hw'
    injection hw' with e
    subst e
    rw [hp]
    exact getD_set_self _ _ _ hlen
  · simp only [claimWinnings, hw]
    rw [if_neg (not_not_intro hres)]
    rw [if_neg (not_not_intro (by rw [hp, List.length_set]; exact hlen))]
    rw [if_pos (by rw [hp]; exact getD_set_self _ _ _ hlen)]

/-- Witness for C7: the concrete market with pools [4, 6]: the first claim
succeeds and the theorem yields the zeroed balance and the second claim's
`NoWinningShares` failure. -/
theorem claim_winnings_twice_witness :
    (Position.mk [0, 9]).shares.getD 0 0 = 0 ∧
    claimWinnings
      { outcomes := [String.mk [], String.mk []], outcome_pools := [4, 6],
        total_pool := 10, resolved := true, winning_outcome := some 0 }
      { shares := [0, 9] }
      = .error .noWinningShares := by
  have hclaim : claimWinnings
      { outcomes := [String.mk [], String.mk []], outcome_pools := [4, 6],
        total_pool := 10, resolved := true, winning_outcome := some 0 }
      { shares := [2, 9] }
      = .ok ({ outcomes := [String.mk [], String.mk []], outcome_pools := [4, 6],
               total_pool := 10, resolved := true, winning_outcome := some 0 },
             { shares := [0, 9] }, 5) := by decide
  have h := claim_winnings_twice _ _ _ _ _ hclaim
  exact ⟨h.1 0 rfl, h.2⟩

/-- C10: a successful parimutuel claim only zeroes the winning entry of
the claimer's shares vector: every losing entry and every market field
(pools, total, resolved flag, winning outcome, outcome labels) is
unchanged. -/
theorem claim_winnings_frame (m m' : Market) (p p' : Position) (net : Nat)
    (h : claimWinnings m p = .ok (m', p', net)) :
    m'.outcome_pools = m.outcome_pools ∧ m'.total_pool = m.total_pool ∧
    m'.resolved = m.resolved ∧ m'.winning_outcome = m.winning_outcome ∧
    m'.outcomes = m.outcomes ∧
    ∃ w, m.winning_outcome = some w ∧ p'.shares = p.shares.set w 0 ∧
      p'.shares.length = p.shares.length ∧
      ∀ j, j ≠ w → p'.shares.getD j 0 = p.shares.getD j 0 := by
  obtain ⟨hm, hres, w, hw, hlen, hpos, hplen, hp⟩ := claimWinnings_ok_inv m m' p p' net h
  subst hm
  exact ⟨rfl, rfl, rfl, rfl, rfl, w, hw, hp, by rw [hp, List.length_set],
    fun j hj => by rw [hp]; exact getD_set_ne _ _ _ _ hj⟩

/-- Witness for C10: the pools-[4, 6] market claim leaves the losing entry
and all market fields intact. -/
theorem claim_winnings_frame_witness :
    [0, 9].getD 1 0 = ([2, 9] : List Nat).getD 1 0 := by
  have hclaim : claimWinnings
      { outcomes := [String.mk [], String.mk []], outcome_pools := [4, 6],
        total_pool := 10, resolved := true, winning_outcome := some 0 }
      { shares := [2, 9] }
      = .ok ({ outcomes := [String.mk [], String.mk []], outcome_pools := [4, 6],
               total_pool := 10, resolved := true, winning_outcome := some 0 },
             { shares := [0, 9] }, 5) := by decide
  obtain ⟨-, -, -, -, -, w, hw, hp, -, hlose⟩ :=
    claim_winnings_frame _ _ _ _ _ hclaim
  injection hw with e
  subst e
  exact hlose 1 one_ne_zero

/-- Counterexample for C1: on a resolved market whose winning pool is 0
while the claimer still holds 3 winning shares, the payout computation
aborts through an `unwrap` panic (`unwrapPanic`), not through any surfaced
`DivideByZero` (or other) program error condition — contradicting the
claim that the failure is an explicitly surfaced rejection and never an
unguarded panic. -/
theorem claim_divzero_counterexample :
    claimWinnings
      { outcomes := [String.mk []], outcome_pools := [0], total_pool := 5,
        resolved := true, winning_outcome := some 0 }
      { shares := [3] }
      = .error .unwrapPanic := by
  decide

/-- C1 (amended): the u128 widened multiply of two u64 operands can never
exceed the intermediate width, so the Overflow branch of the payout
computation is unreachable; and if `total_winning_amount == 0` the claim
instruction aborts before any mutation is committed (no `ok` state is
produced), but through an `unwrap` panic of the checked division rather
than an explicitly surfaced DivideByZero error code — the arithmetic never
wraps silently. -/
theorem claim_arith_failure_modes :
    (∀ a b : Nat, a < U64_MOD → b < U64_MOD → checkedMul128 a b = some (a * b)) ∧
    (∀ (m : Market) (p : Position) (w : Nat),
      m.resolved = true → m.winning_outcome = some w →
      w < p.shares.length → 0 < p.shares.getD w 0 →
      w < m.outcome_pools.length → m.outcome_pools.getD w 0 = 0 →
      claimWinnings m p = .error .unwrapPanic) := by
  constructor
  · intro a b ha hb
    unfold checkedMul128
    rw [if_pos]
    calc a * b < U64_MOD * U64_MOD :=
          Nat.mul_lt_mul_of_lt_of_le ha (Nat.le_of_lt hb) (by simp [U64_MOD])
      _ = U128_MOD := by norm_num [U64_MOD, U128_MOD]
  · intro m p w hres hw hlen hpos hplen hWz
    simp only [claimWinnings, hw]
    rw [if_neg (not_not_intro hres)]
    rw [if_neg (not_not_intro hlen)]
    rw [if_neg (by omega : ¬ p.shares.getD w 0 = 0)]
    rw [if_neg (not_not_intro hplen)]
    rcases hmul : checkedMul128 (p.shares.getD w 0) m.total_pool with _ | prod
    · simp only [hmul]
    · have hdiv : checkedDiv128 prod (m.outcome_pools.getD w 0) = none := by
        unfold checkedDiv128
        rw [if_pos hWz]
      simp only [hmul, hdiv]

/-- Witness for C1 (amended): both conjuncts at concrete inputs — the
widened multiply of 3 and 5 succeeds, and the zero-winning-pool market
aborts with the panic marker. -/
theorem claim_arith_failure_modes_witness :
    checkedMul128 3 5 = some 15 ∧
    claimWinnings
      { outcomes := [String.mk []], outcome_pools := [0], total_pool := 7,
        resolved := true, winning_outcome := some 0 }
      { shares := [2] }
      = .error .unwrapPanic := by
  constructor
  · have h := claim_arith_failure_modes.1 3 5 (by decide) (by decide)
    rw [h]
  · exact claim_arith_failure_modes.2 _ _ 0 rfl rfl (by decide) (by decide)
      (by decide) rfl

/-- C9: on a resolved CLOB market the claim pays exactly
`shares_on_winning_side * SHARE_PAYOUT` (u64-checked), fails with
`NoWinnings` when the winning-side balance is zero, and on success zeroes
both the YES and the NO balance of the position. -/
theorem claim_clob_payout (mk : ClobMarket) (pos : ClobPosition) (ws : Nat)
    (hres : mk.resolved = true)
    (hw : mk.winning_side = some ws)
    (hbound : (if ws = 0 then pos.yes_shares else pos.no_shares) * SHARE_PAYOUT < U64_MOD) :
    ((if ws = 0 then pos.yes_shares else pos.no_shares) = 0 →
        claimClobWinnings mk pos = .error .noWinnings) ∧
    (0 < (if ws = 0 then pos.yes_shares else pos.no_shares) →
        claimClobWinnings mk pos =
          .ok ({ pos with yes_shares := 0, no_shares := 0 },
               (if ws = 0 then pos.yes_shares else pos.no_shares) * SHARE_PAYOUT)) := by
  simp only [claimClobWinnings, hw]
  rw [if_neg (not_not_intro hres)]
  by_cases hws : ws = 0
  · subst hws
    simp only [eq_self_iff_true, ite_true] at hbound ⊢
    have hcm : checkedMul64 pos.yes_shares SHARE_PAYOUT
        = some (pos.yes_shares * SHARE_PAYOUT) := by
      unfold checkedMul64
      rw [if_pos hbound]
    simp only [hcm]
    constructor
    · intro h0
      rw [h0]
      simp
    · intro hgt
      rw [if_neg (not_not_intro (Nat.mul_pos hgt (by norm_num [SHARE_PAYOUT])))]
  · simp only [if_neg hws] at hbound ⊢
    have hcm : checkedMul64 pos.no_shares SHARE_PAYOUT
        = some (pos.no_shares * SHARE_PAYOUT) := by
      unfold checkedMul64
      rw [if_pos hbound]
    simp only [hcm]
    constructor
    · intro h0
      rw [h0]
      simp
    · intro hgt
      rw [if_neg (not_not_intro (Nat.mul_pos hgt (by norm_num [SHARE_PAYOUT])))]

/-- Witness for C9: on a YES-resolved market, 3 YES shares (with a losing
NO balance of 5) pay `3 * SHARE_PAYOUT = 30000` and both balances clear;
a position with zero YES shares fails with `NoWinnings`. -/
theorem claim_clob_payout_witness :
    claimClobWinnings
      { resolution_time := 100, resolved := true, winning_side := some 0 }
      { owner := 7, yes_shares := 3, no_shares := 5 }
      = .ok ({ owner := 7, yes_shares := 0, no_shares := 0 }, 30000) ∧
    claimClobWinnings
      { resolution_time := 100, resolved := true, winning_side := some 0 }
      { owner := 8, yes_shares := 0, no_shares := 5 }
      = .error .noWinnings := by
  constructor
  · have h := (claim_clob_payout
      { resolution_time := 100, resolved := true, winning_side := some 0 }
      { owner := 7, yes_shares := 3, no_shares := 5 } 0 rfl rfl (by decide)).2
      (by decide)
    rw [h]
    decide
  · exact (claim_clob_payout
      { resolution_time := 100, resolved := true, winning_side := some 0 }
      { owner := 8, yes_shares := 0, no_shares := 5 } 0 rfl rfl (by decide)).1
      (by decide)

/-- C8: a NO order at price `p` (1 ≤ p ≤ 9999) on side `s` is processed
exactly as a YES order at price `10000 - p` on the flipped side: the two
`place_order` calls are equal on every market, book, position and input. -/
theorem place_order_no_normalization
    (mk : ClobMarket) (book : OrderBook) (pos : ClobPosition)
    (trader side : Nat) (price size : Nat) (now : Int) (arrival : Nat)
    (h1 : 1 ≤ price) (h2 : price ≤ 9999) :
    placeOrder mk book pos trader side false price size now arrival =
      placeOrder mk book pos trader (if side = 0 then 1 else 0) true
        (BPS_MAX - price) size now arrival := by
  unfold placeOrder
  have hv1 : 0 < price ∧ price < BPS_MAX := by
    simp only [BPS_MAX]
    omega
  have hv2 : 0 < BPS_MAX - price ∧ BPS_MAX - price < BPS_MAX := by
    simp only [BPS_MAX]
    omega
  rw [if_neg (not_not_intro hv1), if_neg (not_not_intro hv2)]
  simp only [Bool.false_eq_true, if_false, if_true, ite_true, ite_false]

/-- Witness for C8: a concrete NO-bid at 4000 bps equals the YES-ask at
6000 bps on the flipped side. -/
theorem place_order_no_normalization_witness :
    placeOrder
      { resolution_time := 100, resolved := false, winning_side := none }
      { yes_bids := [], yes_asks := [] }
      { owner := 7, yes_shares := 0, no_shares := 0 }
      7 0 false 4000 10 5 1
      = placeOrder
      { resolution_time := 100, resolved := false, winning_side := none }
      { yes_bids := [], yes_asks := [] }
      { owner := 7, yes_shares := 0, no_shares := 0 }
      7 1 true 6000 10 5 1 := by
  have h := place_order_no_normalization
    { resolution_time := 100, resolved := false, winning_side := none }
    { yes_bids := [], yes_asks := [] }
    { owner := 7, yes_shares := 0, no_shares := 0 }
    7 0 4000 10 5 1 (by decide) (by decide)
  simpa using h

/-! ### Matching-loop lemmas (ask side) -/

/-- Conservation facts for one run of `match_against_asks`: at most the
incoming size fills, the taker's YES balance grows by exactly the filled
amount (`n - r`), the NO balance and owner are untouched, and the total
resting ask size shrinks by exactly the filled amount. -/
theorem matchAgainstAsks_facts (p : Nat) (asks : List Order)
    (pos : ClobPosition) (n : Nat) (asks' : List Order) (pos' : ClobPosition) (r : Nat)
    (h : matchAgainstAsks p asks pos n = .ok (asks', pos', r)) :
    r ≤ n ∧ pos'.yes_shares = pos.yes_shares + (n - r) ∧
    pos'.no_shares = pos.no_shares ∧ pos'.owner = pos.owner ∧
    sumSizes asks' + (n - r) = sumSizes asks := by
  induction asks generalizing pos n with
  | nil =>
    simp only [matchAgainstAsks, Except.ok.injEq, Prod.mk.injEq] at h
    obtain ⟨h1, h2, h3⟩ := h
    subst h1
    subst h2
    subst h3
    simp
  | cons o rest ih =>
    simp only [matchAgainstAsks] at h
    split at h
    · rename_i hsz
      simp only [Except.ok.injEq, Prod.mk.injEq] at h
      obtain ⟨h1, h2, h3⟩ := h
      subst h1
      subst h2
      subst h3
      simp [hsz]
    split at h
    · rename_i hpr
      simp only [Except.ok.injEq, Prod.mk.injEq] at h
      obtain ⟨h1, h2, h3⟩ := h
      subst h1
      subst h2
      subst h3
      simp
    rename_i hsz hpr
    split at h
    · exact Except.noConfusion h
    rename_i ys hadd
    obtain ⟨hys, -⟩ := checkedAdd64_some hadd
    split at h
    · rename_i hfull
      obtain ⟨hr, hyes, hno, hown, hsum⟩ := ih _ _ h
      have hminle : min n o.size ≤ n := Nat.min_le_left _ _
      refine ⟨by omega, ?_, by simpa using hno, by simpa using hown, ?_⟩
      · simp only [hyes, hys]
        omega
      · simp only [sumSizes, List.map_cons, List.sum_cons] at *
        omega
    · rename_i hfull
      have hfn : min n o.size = n := (min_choice n o.size).resolve_right hfull
      have hle : n ≤ o.size := by
        have := Nat.min_le_right n o.size
        omega
      simp only [Except.ok.injEq, Prod.mk.injEq] at h
      obtain ⟨h1, h2, h3⟩ := h
      subst h1
      subst h2
      subst h3
      refine ⟨by omega, by simp [hys, hfn], by simp, by simp, ?_⟩
      simp only [sumSizes, List.map_cons, List.sum_cons]
      omega

/-- If the matching loop exits with size left over, the ask side is either
exhausted or its best price is strictly above the taker's limit. -/
theorem matchAgainstAsks_exit (p : Nat) (asks : List Order)
    (pos : ClobPosition) (n : Nat) (asks' : List Order) (pos' : ClobPosition) (r : Nat)
    (h : matchAgainstAsks p asks pos n = .ok (asks', pos', r)) (hr : 0 < r) :
    ∀ o' ∈ asks'.head?, p < o'.price := by
  induction asks generalizing pos n with
  | nil =>
    simp only [matchAgainstAsks, Except.ok.injEq, Prod.mk.injEq] at h
    obtain ⟨h1, h2, h3⟩ := h
    subst h1
    simp
  | cons o rest ih =>
    simp only [matchAgainstAsks] at h
    split at h
    · rename_i hsz
      simp only [Except.ok.injEq, Prod.mk.injEq] at h
      obtain ⟨h1, h2, h3⟩ := h
      exact absurd hr (by omega)
    split at h
    · rename_i hsz hpr
      simp only [Except.ok.injEq, Prod.mk.injEq] at h
      obtain ⟨h1, h2, h3⟩ := h
      subst h1
      intro o' ho'
      simp only [List.head?_cons, Option.mem_def, Option.some.injEq] at ho'
      subst ho'
      exact hpr
    rename_i hsz hpr
    split at h
    · exact Except.noConfusion h
    rename_i ys hadd
    split at h
    · exact ih _ _ h
    · rename_i hfull
      have hfn : min n o.size = n := (min_choice n o.size).resolve_right hfull
      simp only [Except.ok.injEq, Prod.mk.injEq] at h
      obtain ⟨h1, h2, h3⟩ := h
      exact absurd hr (by omega)

/-- The matching loop preserves the ask-side priority ordering (it only
drops leading orders or shrinks the head's size). -/
theorem matchAgainstAsks_pairwise (p : Nat) (asks : List Order)
    (pos : ClobPosition) (n : Nat) (asks' : List Order) (pos' : ClobPosition) (r : Nat)
    (h : matchAgainstAsks p asks pos n = .ok (asks', pos', r))
    (hs : asks.Pairwise askBefore) : asks'.Pairwise askBefore := by
  induction asks generalizing pos n with
  | nil =>
    simp only [matchAgainstAsks, Except.ok.injEq, Prod.mk.injEq] at h
    obtain ⟨h1, -, -⟩ := h
    subst h1
    exact List.Pairwise.nil
  | cons o rest ih =>
    simp only [matchAgainstAsks] at h
    split at h
    · simp only [Except.ok.injEq, Prod.mk.injEq] at h
      obtain ⟨h1, -, -⟩ := h
      subst h1
      exact hs
    split at h
    · simp only [Except.ok.injEq, Prod.mk.injEq] at h
      obtain ⟨h1, -, -⟩ := h
      subst h1
      exact hs
    rename_i hsz hpr
    split at h
    · exact Except.noConfusion h
    rename_i ys hadd
    split at h
    · exact ih _ _ h hs.of_cons
    · simp only [Except.ok.injEq, Prod.mk.injEq] at h
      obtain ⟨h1, -, -⟩ := h
      subst h1
      cases hs with
      | cons hall htail => exact List.Pairwise.cons (fun y hy => hall y hy) htail

/-- Every order left on the ask side after matching has the price and
arrival stamp of an order that was already resting before the match. -/
theorem matchAgainstAsks_mem (p : Nat) (asks : List Order)
    (pos : ClobPosition) (n : Nat) (asks' : List Order) (pos' : ClobPosition) (r : Nat)
    (h : matchAgainstAsks p asks pos n = .ok (asks', pos', r)) :
    ∀ o' ∈ asks', ∃ o ∈ asks, o'.price = o.price ∧ o'.arrival = o.arrival := by
  induction asks generalizing pos n with
  | nil =>
    simp only [matchAgainstAsks, Except.ok.injEq, Prod.mk.injEq] at h
    obtain ⟨h1, -, -⟩ := h
    subst h1
    simp
  | cons o rest ih =>
    simp only [matchAgainstAsks] at h
    split at h
    · simp only [Except.ok.injEq, Prod.mk.injEq] at h
      obtain ⟨h1, -, -⟩ := h
      subst h1
      exact fun o' ho' => ⟨o', ho', rfl, rfl⟩
    split at h
    · simp only [Except.ok.injEq, Prod.mk.injEq] at h
      obtain ⟨h1, -, -⟩ := h
      subst h1
      exact fun o' ho' => ⟨o', ho', rfl, rfl⟩
    rename_i hsz hpr
    split at h
    · exact Except.noConfusion h
    rename_i ys hadd
    split at h
    · intro o' ho'
      obtain ⟨o₀, ho₀, he⟩ := ih _ _ h o' ho'
      exact ⟨o₀, List.mem_cons_of_mem _ ho₀, he⟩
    · simp only [Except.ok.injEq, Prod.mk.injEq] at h
      obtain ⟨h1, -, -⟩ := h
      subst h1
      intro o' ho'
      rcases List.mem_cons.mp ho' with he | hm
      · subst he
        exact ⟨o, List.mem_cons_self _ _, rfl, rfl⟩
      · exact ⟨o', List.mem_cons_of_mem _ hm, rfl, rfl⟩

/-- If matching returns the full incoming size (nothing filled) against a
book of positive-size resting orders, the ask list and the position are
untouched. -/
theorem matchAgainstAsks_nofill (p : Nat) (asks : List Order)
    (pos : ClobPosition) (n : Nat) (asks' : List Order) (pos' : ClobPosition)
    (h : matchAgainstAsks p asks pos n = .ok (asks', pos', n))
    (hpos : ∀ o ∈ asks, 0 < o.size) :
    asks' = asks ∧ pos' = pos := by
  cases asks with
  | nil =>
    simp only [matchAgainstAsks, Except.ok.injEq, Prod.mk.injEq] at h
    obtain ⟨h1, h2, -⟩ := h
    exact ⟨h1.symm, h2.symm⟩
  | cons o rest =>
    simp only [matchAgainstAsks] at h
    split at h
    · simp only [Except.ok.injEq, Prod.mk.injEq] at h
      obtain ⟨h1, h2, -⟩ := h
      exact ⟨h1.symm, h2.symm⟩
    split at h
    · simp only [Except.ok.injEq, Prod.mk.injEq] at h
      obtain ⟨h1, h2, -⟩ := h
      exact ⟨h1.symm, h2.symm⟩
    rename_i hsz hpr
    split at h
    · exact Except.noConfusion h
    rename_i ys hadd
    have hop : 0 < o.size := hpos o (List.mem_cons_self _ _)
    have hfpos : 0 < min n o.size := lt_min (Nat.pos_of_ne_zero hsz) hop
    split at h
    · obtain ⟨hr, -, -, -, -⟩ := matchAgainstAsks_facts _ _ _ _ _ _ _ h
      exact absurd hr (by omega)
    · simp only [Except.ok.injEq, Prod.mk.injEq] at h
      obtain ⟨-, -, h3⟩ := h
      exact absurd h3 (by omega)

/-! ### Matching-loop lemmas (bid side, mirror images) -/

/-- Conservation facts for one run of `match_against_bids`: the taker's NO
balance grows by exactly the filled amount, YES balance and owner are
untouched, and the total resting bid size shrinks by the filled amount. -/
theorem matchAgainstBids_facts (p : Nat) (bids : List Order)
    (pos : ClobPosition) (n : Nat) (bids' : List Order) (pos' : ClobPosition) (r : Nat)
    (h : matchAgainstBids p bids pos n = .ok (bids', pos', r)) :
    r ≤ n ∧ pos'.no_shares = pos.no_shares + (n - r) ∧
    pos'.yes_shares = pos.yes_shares ∧ pos'.owner = pos.owner ∧
    sumSizes bids' + (n - r) = sumSizes bids := by
  induction bids generalizing pos n with
  | nil =>
    simp only [matchAgainstBids, Except.ok.injEq, Prod.mk.injEq] at h
    obtain ⟨h1, h2, h3⟩ := h
    subst h1
    subst h2
    subst h3
    simp
  | cons o rest ih =>
    simp only [matchAgainstBids] at h
    split at h
    · rename_i hsz
      simp only [Except.ok.injEq, Prod.mk.injEq] at h
      obtain ⟨h1, h2, h3⟩ := h
      subst h1
      subst h2
      subst h3
      simp [hsz]
    split at h
    · rename_i hpr
      simp only [Except.ok.injEq, Prod.mk.injEq] at h
      obtain ⟨h1, h2, h3⟩ := h
      subst h1
      subst h2
      subst h3
      simp
    rename_i hsz hpr
    split at h
    · exact Except.noConfusion h
    rename_i ns hadd
    obtain ⟨hns, -⟩ := checkedAdd64_some hadd
    split at h
    · rename_i hfull
      obtain ⟨hr, hno, hyes, hown, hsum⟩ := ih _ _ h
      have hminle : min n o.size ≤ n := Nat.min_le_left _ _
      refine ⟨by omega, ?_, by simpa using hyes, by simpa using hown, ?_⟩
      · simp only [hno, hns]
        omega
      · simp only [sumSizes, List.map_cons, List.sum_cons] at *
        omega
    · rename_i hfull
      have hfn : min n o.size = n := (min_choice n o.size).resolve_right hfull
      have hle : n ≤ o.size := by
        have := Nat.min_le_right n o.size
        omega
      simp only [Except.ok.injEq, Prod.mk.injEq] at h
      obtain ⟨h1, h2, h3⟩ := h
      subst h1
      subst h2
      subst h3
      refine ⟨by omega, by simp [hns, hfn], by simp, by simp, ?_⟩
      simp only [sumSizes, List.map_cons, List.sum_cons]
      omega

/-- If the bid-side matching loop exits with size left over, the bid side
is either exhausted or its best price is strictly below the taker's floor. -/
theorem matchAgainstBids_exit (p : Nat) (bids : List Order)
    (pos : ClobPosition) (n : Nat) (bids' : List Order) (pos' : ClobPosition) (r : Nat)
    (h : matchAgainstBids p bids pos n = .ok (bids', pos', r)) (hr : 0 < r) :
    ∀ o' ∈ bids'.head?, o'.price < p := by
  induction bids generalizing pos n with
  | nil =>
    simp only [matchAgainstBids, Except.ok.injEq, Prod.mk.injEq] at h
    obtain ⟨h1, h2, h3⟩ := h
    subst h1
    simp
  | cons o rest ih =>
    simp only [matchAgainstBids] at h
    split at h
    · rename_i hsz
      simp only [Except.ok.injEq, Prod.mk.injEq] at h
      obtain ⟨h1, h2, h3⟩ := h
      exact absurd hr (by omega)
    split at h
    · rename_i hsz hpr
      simp only [Except.ok.injEq, Prod.mk.injEq] at h
      obtain ⟨h1, h2, h3⟩ := h
      subst h1
      intro o' ho'
      simp only [List.head?_cons, Option.mem_def, Option.some.injEq] at ho'
      subst ho'
      exact hpr
    rename_i hsz hpr
    split at h
    · exact Except.noConfusion h
    rename_i ns hadd
    split at h
    · exact ih _ _ h
    · rename_i hfull
      have hfn : min n o.size = n := (min_choice n o.size).resolve_right hfull
      simp only [Except.ok.injEq, Prod.mk.injEq] at h
      obtain ⟨h1, h2, h3⟩ := h
      exact absurd hr (by omega)

/-- The matching loop preserves the bid-side priority ordering. -/
theorem matchAgainstBids_pairwise (p : Nat) (bids : List Order)
    (pos : ClobPosition) (n : Nat) (bids' : List Order) (pos' : ClobPosition) (r : Nat)
    (h : matchAgainstBids p bids pos n = .ok (bids', pos', r))
    (hs : bids.Pairwise bidBefore) : bids'.Pairwise bidBefore := by
  induction bids generalizing pos n with
  | nil =>
    simp only [matchAgainstBids, Except.ok.injEq, Prod.mk.injEq] at h
    obtain ⟨h1, -, -⟩ := h
    subst h1
    exact List.Pairwise.nil
  | cons o rest ih =>
    simp only [matchAgainstBids] at h
    split at h
    · simp only [Except.ok.injEq, Prod.mk.injEq] at h
      obtain ⟨h1, -, -⟩ := h
      subst h1
      exact hs
    split at h
    · simp only [Except.ok.injEq, Prod.mk.injEq] at h
      obtain ⟨h1, -, -⟩ := h
      subst h1
      exact hs
    rename_i hsz hpr
    split at h
    · exact Except.noConfusion h
    rename_i ns hadd
    split at h
    · exact ih _ _ h hs.of_cons
    · simp only [Except.ok.injEq, Prod.mk.injEq] at h
      obtain ⟨h1, -, -⟩ := h
      subst h1
      cases hs with
      | cons hall htail => exact List.Pairwise.cons (fun y hy => hall y hy) htail

/-- Every order left on the bid side after matching has the price and
arrival stamp of an order that was already resting before the match. -/
theorem matchAgainstBids_mem (p : Nat) (bids : List Order)
    (pos : ClobPosition) (n : Nat) (bids' : List Order) (pos' : ClobPosition) (r : Nat)
    (h : matchAgainstBids p bids pos n = .ok (bids', pos', r)) :
    ∀ o' ∈ bids', ∃ o ∈ bids, o'.price = o.price ∧ o'.arrival = o.arrival := by
  induction bids generalizing pos n with
  | nil =>
    simp only [matchAgainstBids, Except.ok.injEq, Prod.mk.injEq] at h
    obtain ⟨h1, -, -⟩ := h
    subst h1
    simp
  | cons o rest ih =>
    simp only [matchAgainstBids] at h
    split at h
    · simp only [Except.ok.injEq, Prod.mk.injEq] at h
      obtain ⟨h1, -, -⟩ := h
      subst h1
      exact fun o' ho' => ⟨o', ho', rfl, rfl⟩
    split at h
    · simp only [Except.ok.injEq, Prod.mk.injEq] at h
      obtain ⟨h1, -, -⟩ := h
      subst h1
      exact fun o' ho' => ⟨o', ho', rfl, rfl⟩
    rename_i hsz hpr
    split at h
    · exact Except.noConfusion h
    rename_i ns hadd
    split at h
    · intro o' ho'
      obtain ⟨o₀, ho₀, he⟩ := ih _ _ h o' ho'
      exact ⟨o₀, List.mem_cons_of_mem _ ho₀, he⟩
    · simp only [Except.ok.injEq, Prod.mk.injEq] at h
      obtain ⟨h1, -, -⟩ := h
      subst h1
      intro o' ho'
      rcases List.mem_cons.mp ho' with he | hm
      · subst he
        exact ⟨o, List.mem_cons_self _ _, rfl, rfl⟩
      · exact ⟨o', List.mem_cons_of_mem _ hm, rfl, rfl⟩

/-- If bid-side matching returns the full incoming size against a book of
positive-size resting orders, the bid list and the position are untouched. -/
theorem matchAgainstBids_nofill (p : Nat) (bids : List Order)
    (pos : ClobPosition) (n : Nat) (bids' : List Order) (pos' : ClobPosition)
    (h : matchAgainstBids p bids pos n = .ok (bids', pos', n))
    (hpos : ∀ o ∈ bids, 0 < o.size) :
    bids' = bids ∧ pos' = pos := by
  cases bids with
  | nil =>
    simp only [matchAgainstBids, Except.ok.injEq, Prod.mk.injEq] at h
    obtain ⟨h1, h2, -⟩ := h
    exact ⟨h1.symm, h2.symm⟩
  | cons o rest =>
    simp only [matchAgainstBids] at h
    split at h
    · simp only [Except.ok.injEq, Prod.mk.injEq] at h
      obtain ⟨h1, h2, -⟩ := h
      exact ⟨h1.symm, h2.symm⟩
    split at h
    · simp only [Except.ok.injEq, Prod.mk.injEq] at h
      obtain ⟨h1, h2, -⟩ := h
      exact ⟨h1.symm, h2.symm⟩
    rename_i hsz hpr
    split at h
    · exact Except.noConfusion h
    rename_i ns hadd
    have hop : 0 < o.size := hpos o (List.mem_cons_self _ _)
    have hfpos : 0 < min n o.size := lt_min (Nat.pos_of_ne_zero hsz) hop
    split at h
    · obtain ⟨hr, -, -, -, -⟩ := matchAgainstBids_facts _ _ _ _ _ _ _ h
      exact absurd hr (by omega)
    · simp only [Except.ok.injEq, Prod.mk.injEq] at h
      obtain ⟨-, -, h3⟩ := h
      exact absurd h3 (by omega)

/-- Full inversion of a successful `place_order`: the validations passed,
the order was normalised to effective side/price, collateral was the
effective price (bid) or its complement (ask) times the full size, the
matching loop ran on the corresponding book side, and the remainder (if
any) was inserted as a resting order on the other side. -/
theorem placeOrder_ok_inv (mk : ClobMarket) (book : OrderBook) (pos : ClobPosition)
    (trader side : Nat) (is_yes : Bool) (price size : Nat) (now : Int) (arrival : Nat)
    (b' : OrderBook) (pos' : ClobPosition) (c r : Nat)
    (h : placeOrder mk book pos trader side is_yes price size now arrival
        = .ok (b', pos', c, r)) :
    0 < size ∧
    ∃ es ep : Nat, ∃ pos0 : ClobPosition, ∃ o : Order,
      es = (if is_yes then side else if side = 0 then 1 else 0) ∧
      ep = (if is_yes then price else BPS_MAX - price) ∧
      pos0 = (if pos.owner = 0 then { owner := trader, yes_shares := 0, no_shares := 0 } else pos) ∧
      o = { owner := trader, price := ep, size := r, timestamp := now,
            order_id := (now % (U64_MOD : Int)).toNat, arrival := arrival } ∧
      ((es = 0 ∧ c = ep * size ∧ ep * size < U64_MOD ∧
          ∃ asks', matchAgainstAsks ep book.yes_asks pos0 size = .ok (asks', pos', r) ∧
            ((0 < r ∧ book.yes_bids.length < MAX_ORDERS ∧
                b' = { yes_bids := insertBid o book.yes_bids, yes_asks := asks' }) ∨
              (r = 0 ∧ b' = { yes_bids := book.yes_bids, yes_asks := asks' }))) ∨
        (¬ es = 0 ∧ c = (BPS_MAX - ep) * size ∧ (BPS_MAX - ep) * size < U64_MOD ∧
          ∃ bids', matchAgainstBids ep book.yes_bids pos0 size = .ok (bids', pos', r) ∧
            ((0 < r ∧ book.yes_asks.length < MAX_ORDERS ∧
                b' = { yes_bids := bids', yes_asks := insertAsk o book.yes_asks }) ∨
              (r = 0 ∧ b' = { yes_bids := bids', yes_asks := book.yes_asks })))) := by
  simp only [placeOrder] at h
  split at h
  · exact Except.noConfusion h
  rename_i hval
  split at h
  · exact Except.noConfusion h
  rename_i hsz
  split at h
  · exact Except.noConfusion h
  rename_i hres
  split at h
  · exact Except.noConfusion h
  rename_i hexp
  by_cases hes : (if is_yes = true then side else if side = 0 then 1 else 0) = 0
  · simp only [if_pos hes] at h
    split at h
    · exact Except.noConfusion h
    rename_i col hcol
    obtain ⟨hc, hclt⟩ := checkedMul64_some hcol
    split at h
    · exact Except.noConfusion h
    rename_i asks' pos2 remaining hmatch
    split at h
    · rename_i hrem
      split at h
      · exact Except.noConfusion h
      rename_i hfull
      injection h with h1
      simp only [Prod.mk.injEq] at h1
      obtain ⟨hb, hpos2, hcc, hrr⟩ := h1
      subst hpos2
      subst hcc
      subst hrr
      refine ⟨not_not.mp hsz, _, _, _, _, rfl, rfl, rfl, rfl,
        Or.inl ⟨hes, hc.symm ▸ rfl, hc ▸ hclt, asks', hmatch, Or.inl ⟨hrem, not_not.mp hfull, hb.symm⟩⟩⟩
    · rename_i hrem
      injection h with h1
      simp only [Prod.mk.injEq] at h1
      obtain ⟨hb, hpos2, hcc, hrr⟩ := h1
      subst hpos2
      subst hcc
      subst hrr
      refine ⟨not_not.mp hsz, _, _, _, _, rfl, rfl, rfl, rfl,
        Or.inl ⟨hes, hc.symm ▸ rfl, hc ▸ hclt, asks', hmatch, Or.inr ⟨by omega, hb.symm⟩⟩⟩
  · simp only [if_neg hes] at h
    split at h
    · exact Except.noConfusion h
    rename_i col hcol
    obtain ⟨hc, hclt⟩ := checkedMul64_some hcol
    split at h
    · exact Except.noConfusion h
    rename_i bids' pos2 remaining hmatch
    split at h
    · rename_i hrem
      split at h
      · exact Except.noConfusion h
      rename_i hfull
      injection h with h1
      simp only [Prod.mk.injEq] at h1
      obtain ⟨hb, hpos2, hcc, hrr⟩ := h1
      subst hpos2
      subst hcc
      subst hrr
      refine ⟨not_not.mp hsz, _, _, _, _, rfl, rfl, rfl, rfl,
        Or.inr ⟨hes, hc.symm ▸ rfl, hc ▸ hclt, bids', hmatch, Or.inl ⟨hrem, not_not.mp hfull, hb.symm⟩⟩⟩
    · rename_i hrem
      injection h with h1
      simp only [Prod.mk.injEq] at h1
      obtain ⟨hb, hpos2, hcc, hrr⟩ := h1
      subst hpos2
      subst hcc
      subst hrr
      refine ⟨not_not.mp hsz, _, _, _, _, rfl, rfl, rfl, rfl,
        Or.inr ⟨hes, hc.symm ▸ rfl, hc ▸ hclt, bids', hmatch, Or.inr ⟨by omega, hb.symm⟩⟩⟩


/-- C4: an incoming YES-bid at limit `p` of size `n` (placed by its owner
on an already-initialised position) fills only while the best ask price is
within the limit — when any size rests, the remaining ask side is empty or
strictly above `p` — credits the taker's YES balance by exactly the total
filled amount (which exactly equals the resting ask size consumed, fill by
fill at the resting orders' own sizes), and rests any remainder as a bid
at `p` inserted by price-time priority; with no remainder the bid side is
untouched. -/
theorem yes_bid_matching (mk : ClobMarket) (book : OrderBook) (pos : ClobPosition)
    (trader : Nat) (p n : Nat) (now : Int) (arrival : Nat)
    (b' : OrderBook) (pos' : ClobPosition) (c r : Nat)
    (hown : pos.owner = trader) (htr : trader ≠ 0)
    (h : placeOrder mk book pos trader 0 true p n now arrival = .ok (b', pos', c, r)) :
    r ≤ n ∧
    pos'.yes_shares = pos.yes_shares + (n - r) ∧
    pos'.no_shares = pos.no_shares ∧
    sumSizes b'.yes_asks + (n - r) = sumSizes book.yes_asks ∧
    (0 < r → b'.yes_bids = insertBid
        { owner := trader, price := p, size := r, timestamp := now,
          order_id := (now % (U64_MOD : Int)).toNat, arrival := arrival }
        book.yes_bids ∧ ∀ o' ∈ b'.yes_asks.head?, p < o'.price) ∧
    (r = 0 → b'.yes_bids = book.yes_bids) := by
  obtain ⟨hn, es, ep, pos0, o, hes, hep, hpos0, ho, hcase⟩ :=
    placeOrder_ok_inv _ _ _ _ _ _ _ _ _ _ _ _ _ _ h
  simp only [if_pos rfl] at hes hep
  have hpos0' : pos0 = pos := by
    rw [hpos0, if_neg]
    rw [hown]
    exact htr
  rcases hcase with ⟨-, -, -, asks', hmatch, hrest⟩ | ⟨hne, -⟩
  · subst hpos0'
    subst hep
    obtain ⟨hr, hyes, hno, -, hsum⟩ := matchAgainstAsks_facts _ _ _ _ _ _ _ hmatch
    have hasks : b'.yes_asks = asks' := by
      rcases hrest with ⟨-, -, hb⟩ | ⟨-, hb⟩ <;> rw [hb]
    refine ⟨hr, hyes, hno, by rw [hasks]; exact hsum, ?_, ?_⟩
    · intro hrpos
      rcases hrest with ⟨-, -, hb⟩ | ⟨hr0, -⟩
      · subst ho
        refine ⟨by rw [hb], ?_⟩
        rw [hasks]
        exact matchAgainstAsks_exit _ _ _ _ _ _ _ hmatch hrpos
      · omega
    · intro hr0
      rcases hrest with ⟨hrpos, -, -⟩ | ⟨-, hb⟩
      · omega
      · rw [hb]
  · exact absurd hes hne

/-- Witness for C4: a YES-bid at 6000 bps, size 10, against a resting
YES-ask at 5500 bps, size 4: exactly 4 shares fill, the taker's YES
balance grows by exactly 4, the ask is consumed, and 6 rest as a bid at
6000. -/
theorem yes_bid_matching_witness :
    placeOrder
      { resolution_time := 100, resolved := false, winning_side := none }
      { yes_bids := [],
        yes_asks := [{ owner := 2, price := 5500, size := 4, timestamp := 0,
                       order_id := 0, arrival := 0 }] }
      { owner := 7, yes_shares := 0, no_shares := 0 }
      7 0 true 6000 10 5 1
      = .ok ({ yes_bids := [{ owner := 7, price := 6000, size := 6, timestamp := 5,
                              order_id := 5, arrival := 1 }], yes_asks := [] },
             { owner := 7, yes_shares := 4, no_shares := 0 }, 60000, 6) ∧
    (4 : Nat) = 0 + (10 - 6) := by
  have hp : placeOrder
      { resolution_time := 100, resolved := false, winning_side := none }
      { yes_bids := [],
        yes_asks := [{ owner := 2, price := 5500, size := 4, timestamp := 0,
                       order_id := 0, arrival := 0 }] }
      { owner := 7, yes_shares := 0, no_shares := 0 }
      7 0 true 6000 10 5 1
      = .ok ({ yes_bids := [{ owner := 7, price := 6000, size := 6, timestamp := 5,
                              order_id := 5, arrival := 1 }], yes_asks := [] },
             { owner := 7, yes_shares := 4, no_shares := 0 }, 60000, 6) := by
    decide
  have h := yes_bid_matching _ _ _ _ _ _ _ _ _ _ _ _ rfl (by decide) hp
  exact ⟨hp, h.2.1⟩

/-! ### Insertion and cancellation lemmas -/

theorem get?_append_cons (l1 l2 : List Order) (x : Order) :
    (l1 ++ x :: l2).get? l1.length = some x := by
  induction l1 with
  | nil => rfl
  | cons a t ih => exact ih

theorem eraseIdx_append_cons (l1 l2 : List Order) (x : Order) :
    (l1 ++ x :: l2).eraseIdx l1.length = l1 ++ l2 := by
  induction l1 with
  | nil => rfl
  | cons a t ih => exact congrArg (List.cons a) ih

/-- `insertBid` splits the list at the first strictly-lower-priced entry. -/
theorem insertBid_parts (o : Order) (l : List Order) :
    ∃ k, k ≤ l.length ∧ insertBid o l = l.take k ++ o :: l.drop k := by
  induction l with
  | nil => exact ⟨0, by simp, rfl⟩
  | cons b rest ih =>
    by_cases hb : b.price < o.price
    · exact ⟨0, by simp, by simp [insertBid, hb]⟩
    · obtain ⟨k, hk, he⟩ := ih
      refine ⟨k + 1, by simpa using hk, ?_⟩
      simp only [insertBid, if_neg hb, List.take_succ_cons, List.drop_succ_cons,
        List.cons_append, he]

/-- `insertAsk` splits the list at the first strictly-higher-priced entry. -/
theorem insertAsk_parts (o : Order) (l : List Order) :
    ∃ k, k ≤ l.length ∧ insertAsk o l = l.take k ++ o :: l.drop k := by
  induction l with
  | nil => exact ⟨0, by simp, rfl⟩
  | cons b rest ih =>
    by_cases hb : o.price < b.price
    · exact ⟨0, by simp, by simp [insertAsk, hb]⟩
    · obtain ⟨k, hk, he⟩ := ih
      refine ⟨k + 1, by simpa using hk, ?_⟩
      simp only [insertAsk, if_neg hb, List.take_succ_cons, List.drop_succ_cons,
        List.cons_append, he]

/-- Cancelling the bid at a known split position removes exactly that
order and refunds `price * size`. -/
theorem cancelOrder_bid_at (book : OrderBook) (trader : Nat)
    (l1 l2 : List Order) (x : Order) (refund : Nat)
    (hlist : book.yes_bids = l1 ++ x :: l2)
    (hown : x.owner = trader)
    (hmul : checkedMul64 x.price x.size = some refund) :
    cancelOrder book true l1.length trader =
      .ok ({ book with yes_bids := l1 ++ l2 }, refund) := by
  obtain ⟨bids, asks⟩ := book
  simp only at hlist
  subst hlist
  simp only [cancelOrder, reduceIte, get?_append_cons]
  rw [if_neg (not_not_intro hown)]
  simp only [hmul]
  rw [eraseIdx_append_cons l1 l2 x]

/-- Cancelling the ask at a known split position removes exactly that
order and refunds `(BPS_MAX - price) * size`. -/
theorem cancelOrder_ask_at (book : OrderBook) (trader : Nat)
    (l1 l2 : List Order) (x : Order) (refund : Nat)
    (hlist : book.yes_asks = l1 ++ x :: l2)
    (hown : x.owner = trader)
    (hmul : checkedMul64 (BPS_MAX - x.price) x.size = some refund) :
    cancelOrder book false l1.length trader =
      .ok ({ book with yes_asks := l1 ++ l2 }, refund) := by
  obtain ⟨bids, asks⟩ := book
  simp only at hlist
  subst hlist
  simp only [cancelOrder, reduceIte, Bool.false_eq_true, ite_false, get?_append_cons]
  rw [if_neg (not_not_intro hown)]
  simp only [hmul]
  rw [eraseIdx_append_cons l1 l2 x]

/-- Inversion of a successful `cancel_order`: the named side loses the
order at the given index, the other side is untouched. -/
theorem cancelOrder_ok_inv (book : OrderBook) (is_bid : Bool) (idx trader : Nat)
    (b' : OrderBook) (refund : Nat)
    (h : cancelOrder book is_bid idx trader = .ok (b', refund)) :
    (is_bid = true ∧ b' = { book with yes_bids := book.yes_bids.eraseIdx idx }) ∨
    (is_bid = false ∧ b' = { book with yes_asks := book.yes_asks.eraseIdx idx }) := by
  cases is_bid with
  | true =>
    left
    refine ⟨rfl, ?_⟩
    simp only [cancelOrder, reduceIte] at h
    split at h
    · exact Except.noConfusion h
    rename_i o hget
    split at h
    · exact Except.noConfusion h
    split at h
    · exact Except.noConfusion h
    injection h with h1
    exact ((Prod.mk.injEq .. ▸ h1).1).symm
  | false =>
    right
    refine ⟨rfl, ?_⟩
    simp only [cancelOrder, reduceIte] at h
    split at h
    · exact Except.noConfusion h
    rename_i o hget
    split at h
    · exact Except.noConfusion h
    split at h
    · exact Except.noConfusion h
    injection h with h1
    exact ((Prod.mk.injEq .. ▸ h1).1).symm

/-- C6: an order (YES-denominated, on either side) that rests entirely,
with no fill, escrows `price * size` (bid) or `(10000 - price) * size`
(ask), and a subsequent cancel by its owner at the order's resting index
refunds exactly that amount and restores the book to its pre-placement
state (the order is removed, nothing else changes). -/
theorem cancel_refunds_escrow (mk : ClobMarket) (book : OrderBook) (pos : ClobPosition)
    (trader side : Nat) (price size : Nat) (now : Int) (arrival : Nat)
    (b' : OrderBook) (pos' : ClobPosition) (c : Nat)
    (hbid : ∀ o ∈ book.yes_bids, 0 < o.size)
    (hask : ∀ o ∈ book.yes_asks, 0 < o.size)
    (h : placeOrder mk book pos trader side true price size now arrival
        = .ok (b', pos', c, size)) :
    (side = 0 → c = price * size ∧
      ∃ idx, cancelOrder b' true idx trader = .ok (book, c)) ∧
    (side ≠ 0 → c = (BPS_MAX - price) * size ∧
      ∃ idx, cancelOrder b' false idx trader = .ok (book, c)) := by
  obtain ⟨hn, es, ep, pos0, o, hes, hep, hpos0, ho, hcase⟩ :=
    placeOrder_ok_inv _ _ _ _ _ _ _ _ _ _ _ _ _ _ h
  simp only [reduceIte] at hes hep
  subst hes
  subst hep
  constructor
  · intro hside
    rcases hcase with ⟨-, hc, hclt, asks', hmatch, hrest⟩ | ⟨hne, -⟩
    swap
    · exact absurd hside hne
    refine ⟨hc, ?_⟩
    obtain ⟨hasks, -⟩ := matchAgainstAsks_nofill _ _ _ _ _ _ hmatch hask
    rcases hrest with ⟨-, -, hb⟩ | ⟨hr0, -⟩
    swap
    · omega
    obtain ⟨k, hk, hins⟩ := insertBid_parts o book.yes_bids
    have hmul : checkedMul64 o.price o.size = some c := by
      rw [ho]
      unfold checkedMul64
      rw [if_pos hclt, hc]
    have hcan := cancelOrder_bid_at b' trader (book.yes_bids.take k)
      (book.yes_bids.drop k) o c
      (by rw [hb]; simpa using hins)
      (by rw [ho])
      hmul
    refine ⟨(book.yes_bids.take k).length, ?_⟩
    rw [hcan, hb, hasks]
    rw [List.take_append_drop]
  · intro hside
    rcases hcase with ⟨hz, -⟩ | ⟨-, hc, hclt, bids', hmatch, hrest⟩
    · exact absurd hz hside
    refine ⟨hc, ?_⟩
    obtain ⟨hbids, -⟩ := matchAgainstBids_nofill _ _ _ _ _ _ hmatch hbid
    rcases hrest with ⟨-, -, hb⟩ | ⟨hr0, -⟩
    swap
    · omega
    obtain ⟨k, hk, hins⟩ := insertAsk_parts o book.yes_asks
    have hmul : checkedMul64 (BPS_MAX - o.price) o.size = some c := by
      rw [ho]
      unfold checkedMul64
      rw [if_pos hclt, hc]
    have hcan := cancelOrder_ask_at b' trader (book.yes_asks.take k)
      (book.yes_asks.drop k) o c
      (by rw [hb]; simpa using hins)
      (by rw [ho])
      hmul
    refine ⟨(book.yes_asks.take k).length, ?_⟩
    rw [hcan, hb, hbids]
    rw [List.take_append_drop]

/-- Witness for C6: a YES-bid at 4000 bps, size 5, resting unfilled on an
empty book escrows 20000; cancelling it refunds exactly 20000 and empties
the book again. -/
theorem cancel_refunds_escrow_witness :
    (20000 : Nat) = 4000 * 5 ∧
    ∃ idx, cancelOrder
      { yes_bids := [{ owner := 7, price := 4000, size := 5, timestamp := 5,
                       order_id := 5, arrival := 1 }], yes_asks := [] }
      true idx 7
      = .ok ({ yes_bids := [], yes_asks := [] }, 20000) := by
  have hp : placeOrder
      { resolution_time := 100, resolved := false, winning_side := none }
      { yes_bids := [], yes_asks := [] }
      { owner := 7, yes_shares := 0, no_shares := 0 }
      7 0 true 4000 5 5 1
      = .ok ({ yes_bids := [{ owner := 7, price := 4000, size := 5, timestamp := 5,
                              order_id := 5, arrival := 1 }], yes_asks := [] },
             { owner := 7, yes_shares := 0, no_shares := 0 }, 20000, 5) := by
    decide
  have h := (cancel_refunds_escrow _ _ _ _ _ _ _ _ _ _ _ _
    (by intro o ho; cases ho) (by intro o ho; cases ho) hp).1 rfl
  exact ⟨h.1, h.2⟩

/-! ### Book ordering lemmas -/

/-- In a sorted ask list the head has the lowest price. -/
theorem sorted_asks_head_le (a : Order) (t : List Order)
    (h : (a :: t).Pairwise askBefore) : ∀ x ∈ a :: t, a.price ≤ x.price := by
  intro x hx
  rcases List.mem_cons.mp hx with he | hm
  · subst he
    exact le_refl _
  · cases h with
    | cons hall _ =>
      rcases hall x hm with hlt | ⟨heq, -⟩
      · exact le_of_lt hlt
      · exact le_of_eq heq

/-- In a sorted bid list the head has the highest price. -/
theorem sorted_bids_head_ge (a : Order) (t : List Order)
    (h : (a :: t).Pairwise bidBefore) : ∀ x ∈ a :: t, x.price ≤ a.price := by
  intro x hx
  rcases List.mem_cons.mp hx with he | hm
  · subst he
    exact le_refl _
  · cases h with
    | cons hall _ =>
      rcases hall x hm with hlt | ⟨heq, -⟩
      · exact le_of_lt hlt
      · exact le_of_eq heq

/-- Membership in an `insertBid` result. -/
theorem mem_insertBid {z o : Order} {l : List Order} (hz : z ∈ insertBid o l) :
    z = o ∨ z ∈ l := by
  induction l with
  | nil => simpa [insertBid] using hz
  | cons b rest ih =>
    by_cases hb : b.price < o.price
    · simp only [insertBid, if_pos hb, List.mem_cons] at hz
      rcases hz with he | he | hm
      · exact Or.inl he
      · exact Or.inr (by simp [he])
      · exact Or.inr (List.mem_cons_of_mem _ hm)
    · simp only [insertBid, if_neg hb, List.mem_cons] at hz
      rcases hz with he | hm
      · exact Or.inr (by simp [he])
      · rcases ih hm with h' | h'
        · exact Or.inl h'
        · exact Or.inr (List.mem_cons_of_mem _ h')

/-- Membership in an `insertAsk` result. -/
theorem mem_insertAsk {z o : Order} {l : List Order} (hz : z ∈ insertAsk o l) :
    z = o ∨ z ∈ l := by
  induction l with
  | nil => simpa [insertAsk] using hz
  | cons b rest ih =>
    by_cases hb : o.price < b.price
    · simp only [insertAsk, if_pos hb, List.mem_cons] at hz
      rcases hz with he | he | hm
      · exact Or.inl he
      · exact Or.inr (by simp [he])
      · exact Or.inr (List.mem_cons_of_mem _ hm)
    · simp only [insertAsk, if_neg hb, List.mem_cons] at hz
      rcases hz with he | hm
      · exact Or.inr (by simp [he])
      · rcases ih hm with h' | h'
        · exact Or.inl h'
        · exact Or.inr (List.mem_cons_of_mem _ h')

/-- Inserting a strictly newer order keeps the bid side sorted by
price-time priority: it lands before the first strictly-lower price, hence
after every equal-priced (earlier) order. -/
theorem insertBid_pairwise (o : Order) (l : List Order)
    (hs : l.Pairwise bidBefore) (harr : ∀ b ∈ l, b.arrival < o.arrival) :
    (insertBid o l).Pairwise bidBefore := by
  induction l with
  | nil => simp [insertBid]
  | cons b rest ih =>
    cases hs with
    | cons hall htail =>
      by_cases hb : b.price < o.price
      · simp only [insertBid, if_pos hb]
        refine List.Pairwise.cons ?_ (List.Pairwise.cons hall htail)
        intro y hy
        rcases List.mem_cons.mp hy with he | hm
        · subst he
          exact Or.inl hb
        · rcases hall y hm with hlt | ⟨heq, -⟩
          · exact Or.inl (lt_trans hlt hb)
          · exact Or.inl (heq ▸ hb)
      · simp only [insertBid, if_neg hb]
        refine List.Pairwise.cons ?_ (ih htail (fun x hx => harr x (List.mem_cons_of_mem _ hx)))
        intro y hy
        rcases mem_insertBid hy with he | hm
        · rw [he]
          rcases Nat.lt_or_ge o.price b.price with hlt | hge
          · exact Or.inl hlt
          · have : o.price = b.price := le_antisymm (not_lt.mp hb) hge
            exact Or.inr ⟨this, harr b (List.mem_cons_self _ _)⟩
        · exact hall y hm

/-- Inserting a strictly newer order keeps the ask side sorted by
price-time priority. -/
theorem insertAsk_pairwise (o : Order) (l : List Order)
    (hs : l.Pairwise askBefore) (harr : ∀ b ∈ l, b.arrival < o.arrival) :
    (insertAsk o l).Pairwise askBefore := by
  induction l with
  | nil => simp [insertAsk]
  | cons b rest ih =>
    cases hs with
    | cons hall htail =>
      by_cases hb : o.price < b.price
      · simp only [insertAsk, if_pos hb]
        refine List.Pairwise.cons ?_ (List.Pairwise.cons hall htail)
        intro y hy
        rcases List.mem_cons.mp hy with he | hm
        · subst he
          exact Or.inl hb
        · rcases hall y hm with hlt | ⟨heq, -⟩
          · exact Or.inl (lt_trans hb hlt)
          · exact Or.inl (heq ▸ hb)
      · simp only [insertAsk, if_neg hb]
        refine List.Pairwise.cons ?_ (ih htail (fun x hx => harr x (List.mem_cons_of_mem _ hx)))
        intro y hy
        rcases mem_insertAsk hy with he | hm
        · rw [he]
          rcases Nat.lt_or_ge b.price o.price with hlt | hge
          · exact Or.inl hlt
          · have : b.price = o.price := le_antisymm (not_lt.mp hb) hge
            exact Or.inr ⟨this, harr b (List.mem_cons_self _ _)⟩
        · exact hall y hm

/-- The head of `insertBid o l` is `o` or the old head (whose price is
then at least `o.price`). -/
theorem insertBid_head (o : Order) (l : List Order) :
    (insertBid o l).head? = some o ∨
    ∃ b, l.head? = some b ∧ (insertBid o l).head? = some b ∧ ¬ b.price < o.price := by
  cases l with
  | nil => exact Or.inl rfl
  | cons b rest =>
    by_cases hb : b.price < o.price
    · left
      simp [insertBid, hb]
    · right
      exact ⟨b, rfl, by simp [insertBid, hb], hb⟩

/-- The head of `insertAsk o l` is `o` or the old head (whose price is
then at most `o.price`). -/
theorem insertAsk_head (o : Order) (l : List Order) :
    (insertAsk o l).head? = some o ∨
    ∃ b, l.head? = some b ∧ (insertAsk o l).head? = some b ∧ ¬ o.price < b.price := by
  cases l with
  | nil => exact Or.inl rfl
  | cons b rest =>
    by_cases hb : o.price < b.price
    · left
      simp [insertAsk, hb]
    · right
      exact ⟨b, rfl, by simp [insertAsk, hb], hb⟩

/-- One successful `place_order`, stamped with the current arrival
counter, preserves the book ordering invariant, and every arrival stamp in
the resulting book is below the incremented counter. -/
theorem placeOrder_preserves_inv (mk : ClobMarket) (book : OrderBook) (pos : ClobPosition)
    (trader side : Nat) (is_yes : Bool) (price size : Nat) (now : Int) (k : Nat)
    (b' : OrderBook) (pos' : ClobPosition) (c r : Nat)
    (hinv : BookInv book)
    (hbarr : arrivalsBelow k book.yes_bids)
    (haarr : arrivalsBelow k book.yes_asks)
    (h : placeOrder mk book pos trader side is_yes price size now k = .ok (b', pos', c, r)) :
    BookInv b' ∧ arrivalsBelow (k + 1) b'.yes_bids ∧ arrivalsBelow (k + 1) b'.yes_asks := by
  obtain ⟨hpb, hpa, hnc⟩ := hinv
  obtain ⟨hn, es, ep, pos0, o, hes, hep, hpos0, ho, hcase⟩ :=
    placeOrder_ok_inv _ _ _ _ _ _ _ _ _ _ _ _ _ _ h
  have harro : o.arrival = k := by rw [ho]
  have hopr : o.price = ep := by rw [ho]
  rcases hcase with ⟨-, -, -, asks', hmatch, hrest⟩ | ⟨-, -, -, bids', hmatch, hrest⟩
  · have hpa' : asks'.Pairwise askBefore := matchAgainstAsks_pairwise _ _ _ _ _ _ _ hmatch hpa
    have hmem := matchAgainstAsks_mem _ _ _ _ _ _ _ hmatch
    have haarr' : arrivalsBelow (k + 1) asks' := by
      intro z hz
      obtain ⟨o₀, ho₀, -, harr⟩ := hmem z hz
      have := haarr o₀ ho₀
      omega
    have hylow : ∀ y ∈ asks', ∀ x ∈ book.yes_bids.head?, x.price < y.price := by
      intro y hym x hx
      obtain ⟨o₀, ho₀, hyp, -⟩ := hmem y hym
      cases hao : book.yes_asks with
      | nil =>
        rw [hao] at ho₀
        cases ho₀
      | cons a t =>
        have h1 : x.price < a.price :=
          hnc x hx a (show a ∈ book.yes_asks.head? by rw [hao]; rfl)
        have h2 : a.price ≤ o₀.price := sorted_asks_head_le a t (hao ▸ hpa) o₀ (hao ▸ ho₀)
        omega
    rcases hrest with ⟨hrpos, -, hb⟩ | ⟨hr0, hb⟩
    · subst hb
      refine ⟨⟨?_, hpa', ?_⟩, ?_, haarr'⟩
      · exact insertBid_pairwise o book.yes_bids hpb
          (fun b hbm => by have := hbarr b hbm; omega)
      · intro x hx y hy
        have hyb : ep < y.price := matchAgainstAsks_exit _ _ _ _ _ _ _ hmatch hrpos y hy
        rcases insertBid_head o book.yes_bids with hh | ⟨bh, hbh, hh, hge⟩
        · simp only [Option.mem_def] at hx
          rw [hx] at hh
          injection hh with hh
          rw [hh, hopr]
          exact hyb
        · simp only [Option.mem_def] at hx
          rw [hx] at hh
          injection hh with hh
          rw [hh]
          exact hylow y (List.mem_of_mem_head? hy) bh hbh
      · intro z hz
        rcases mem_insertBid hz with he | hm
        · rw [he]
          omega
        · have := hbarr z hm
          omega
    · subst hb
      refine ⟨⟨hpb, hpa', ?_⟩, ?_, haarr'⟩
      · intro x hx y hy
        exact hylow y (List.mem_of_mem_head? hy) x hx
      · intro z hz
        have := hbarr z hz
        omega
  · have hpb' : bids'.Pairwise bidBefore := matchAgainstBids_pairwise _ _ _ _ _ _ _ hmatch hpb
    have hmem := matchAgainstBids_mem _ _ _ _ _ _ _ hmatch
    have hbarr' : arrivalsBelow (k + 1) bids' := by
      intro z hz
      obtain ⟨o₀, ho₀, -, harr⟩ := hmem z hz
      have := hbarr o₀ ho₀
      omega
    have hxhigh : ∀ x ∈ bids', ∀ y ∈ book.yes_asks.head?, x.price < y.price := by
      intro x hxm y hy
      obtain ⟨o₀, ho₀, hxp, -⟩ := hmem x hxm
      cases hbo : book.yes_bids with
      | nil =>
        rw [hbo] at ho₀
        cases ho₀
      | cons a t =>
        have h1 : a.price < y.price :=
          hnc a (show a ∈ book.yes_bids.head? by rw [hbo]; rfl) y hy
        have h2 : o₀.price ≤ a.price := sorted_bids_head_ge a t (hbo ▸ hpb) o₀ (hbo ▸ ho₀)
        omega
    rcases hrest with ⟨hrpos, -, hb⟩ | ⟨hr0, hb⟩
    · subst hb
      refine ⟨⟨hpb', ?_, ?_⟩, ?_, ?_⟩
      · exact insertAsk_pairwise o book.yes_asks hpa
          (fun b hbm => by have := haarr b hbm; omega)
      · intro x hx y hy
        have hxb : x.price < ep := matchAgainstBids_exit _ _ _ _ _ _ _ hmatch hrpos x hx
        rcases insertAsk_head o book.yes_asks with hh | ⟨bh, hbh, hh, hge⟩
        · simp only [Option.mem_def] at hy
          rw [hy] at hh
          injection hh with hh
          rw [hh, hopr]
          exact hxb
        · simp only [Option.mem_def] at hy
          rw [hy] at hh
          injection hh with hh
          rw [hh]
          exact hxhigh x (List.mem_of_mem_head? hx) bh hbh
      · exact hbarr'
      · intro z hz
        rcases mem_insertAsk hz with he | hm
        · rw [he]
          omega
        · have := haarr z hm
          omega
    · subst hb
      refine ⟨⟨hpb', hpa, ?_⟩, hbarr', ?_⟩
      · intro x hx y hy
        exact hxhigh x (List.mem_of_mem_head? hx) y hy
      · intro z hz
        have := haarr z hz
        omega

/-- One successful `cancel_order` preserves the book ordering invariant
and the arrival bound (it only removes an order). -/
theorem cancelOrder_preserves_inv (book : OrderBook) (is_bid : Bool) (idx trader : Nat)
    (b' : OrderBook) (refund : Nat) (k : Nat)
    (hinv : BookInv book)
    (hbarr : arrivalsBelow k book.yes_bids)
    (haarr : arrivalsBelow k book.yes_asks)
    (h : cancelOrder book is_bid idx trader = .ok (b', refund)) :
    BookInv b' ∧ arrivalsBelow k b'.yes_bids ∧ arrivalsBelow k b'.yes_asks := by
  obtain ⟨hpb, hpa, hnc⟩ := hinv
  rcases cancelOrder_ok_inv _ _ _ _ _ _ h with ⟨-, hb⟩ | ⟨-, hb⟩
  · subst hb
    have hsub : List.Sublist (book.yes_bids.eraseIdx idx) book.yes_bids :=
      List.eraseIdx_sublist _ _
    refine ⟨⟨hpb.sublist hsub, hpa, ?_⟩, ?_, haarr⟩
    · intro x hx y hy
      have hxm : x ∈ book.yes_bids := hsub.subset (List.mem_of_mem_head? hx)
      cases hbo : book.yes_bids with
      | nil =>
        rw [hbo] at hxm
        cases hxm
      | cons a t =>
        have h2 : x.price ≤ a.price := sorted_bids_head_ge a t (hbo ▸ hpb) x (hbo ▸ hxm)
        have h1 : a.price < y.price :=
          hnc a (show a ∈ book.yes_bids.head? by rw [hbo]; rfl) y hy
        omega
    · intro z hz
      exact hbarr z (hsub.subset hz)
  · subst hb
    have hsub : List.Sublist (book.yes_asks.eraseIdx idx) book.yes_asks :=
      List.eraseIdx_sublist _ _
    refine ⟨⟨hpb, hpa.sublist hsub, ?_⟩, hbarr, ?_⟩
    · intro x hx y hy
      have hym : y ∈ book.yes_asks := hsub.subset (List.mem_of_mem_head? hy)
      cases hao : book.yes_asks with
      | nil =>
        rw [hao] at hym
        cases hym
      | cons a t =>
        have h2 : a.price ≤ y.price := sorted_asks_head_le a t (hao ▸ hpa) y (hao ▸ hym)
        have h1 : x.price < a.price :=
          hnc x hx a (show a ∈ book.yes_asks.head? by rw [hao]; rfl)
        omega
    · intro z hz
      exact haarr z (hsub.subset hz)

/-- Every reachable book satisfies the ordering invariant, and all its
arrival stamps are below the current arrival counter. -/
theorem reach_book_inv (b : OrderBook) (k : Nat) (h : Reach b k) :
    BookInv b ∧ arrivalsBelow k b.yes_bids ∧ arrivalsBelow k b.yes_asks := by
  induction h with
  | empty =>
    refine ⟨⟨List.Pairwise.nil, List.Pairwise.nil, ?_⟩, ?_, ?_⟩ <;>
      intro x hx <;> cases hx
  | place b k mk pos trader side is_yes price size now b' pos' c r hre hp ih =>
    exact placeOrder_preserves_inv _ _ _ _ _ _ _ _ _ _ _ _ _ _ ih.1 ih.2.1 ih.2.2 hp
  | cancel b k is_bid idx trader b' refund hre hc ih =>
    exact cancelOrder_preserves_inv _ _ _ _ _ _ _ ih.1 ih.2.1 ih.2.2 hc

/-- C5: every book state reachable from the empty book by successful
`place_order` / `cancel_order` calls keeps `yes_bids` sorted by
non-increasing price with FIFO (earlier arrival first) order inside a
price level, `yes_asks` sorted by non-decreasing price with FIFO order
inside a price level, and whenever both sides are non-empty the best bid
price is strictly below the best ask price. -/
theorem book_ordering_invariant (b : OrderBook) (k : Nat) (h : Reach b k) :
    b.yes_bids.Pairwise bidBefore ∧ b.yes_asks.Pairwise askBefore ∧ noCross b := by
  obtain ⟨⟨h1, h2, h3⟩, -, -⟩ := reach_book_inv b k h
  exact ⟨h1, h2, h3⟩

/-- Witness for C5: the book reached by resting a bid at 4000 bps and then
an ask at 6000 bps satisfies the full ordering invariant, with both sides
non-empty. -/
theorem book_ordering_invariant_witness :
    ([{ owner := 7, price := 4000, size := 5, timestamp := 5,
        order_id := 5, arrival := 0 }] : List Order).Pairwise bidBefore ∧
    ([{ owner := 8, price := 6000, size := 3, timestamp := 6,
        order_id := 6, arrival := 1 }] : List Order).Pairwise askBefore ∧
    noCross
      { yes_bids := [{ owner := 7, price := 4000, size := 5, timestamp := 5,
                       order_id := 5, arrival := 0 }],
        yes_asks := [{ owner := 8, price := 6000, size := 3, timestamp := 6,
                       order_id := 6, arrival := 1 }] } := by
  have h1 : placeOrder
      { resolution_time := 100, resolved := false, winning_side := none }
      { yes_bids := [], yes_asks := [] }
      { owner := 7, yes_shares := 0, no_shares := 0 }
      7 0 true 4000 5 5 0
      = .ok ({ yes_bids := [{ owner := 7, price := 4000, size := 5, timestamp := 5,
                              order_id := 5, arrival := 0 }], yes_asks := [] },
             { owner := 7, yes_shares := 0, no_shares := 0 }, 20000, 5) := by
    decide
  have h2 : placeOrder
      { resolution_time := 100, resolved := false, winning_side := none }
      { yes_bids := [{ owner := 7, price := 4000, size := 5, timestamp := 5,
                       order_id := 5, arrival := 0 }], yes_asks := [] }
      { owner := 8, yes_shares := 0, no_shares := 0 }
      8 1 true 6000 3 6 1
      = .ok ({ yes_bids := [{ owner := 7, price := 4000, size := 5, timestamp := 5,
                              order_id := 5, arrival := 0 }],
               yes_asks := [{ owner := 8, price := 6000, size := 3, timestamp := 6,
                              order_id := 6, arrival := 1 }] },
             { owner := 8, yes_shares := 0, no_shares := 0 }, 12000, 3) := by
    decide
  have hreach := Reach.place _ _ _ _ _ _ _ _ _ _ _ _ _ _
    (Reach.place _ _ _ _ _ _ _ _ _ _ _ _ _ _ Reach.empty h1) h2
  exact book_ordering_invariant _ _ hreach

end Agentbets
